import Mathlib

/-!
Verification of the phpbb-scraper core against its specification.

The Python source is shallowly embedded: strings are modelled at the
character level as `List Char` (the source manipulates `str` values
character-wise), mutable session / storage state is passed explicitly,
network and database effects are oracles supplied as function arguments,
and Python exceptions in the modelled code paths are represented by
explicit alternatives (`Option` results / outcome datatypes).
-/

namespace Scraper

/-- Character-level model of a Python `str`. -/
abbrev Str := List Char

/-- Convert a Lean string literal to the model representation. -/
def str (s : String) : Str := s.data

/-- Python `s.split(sep)` for a one-character separator: keeps empty parts,
`pySplit c [] = [[]]` just as `"".split(";") == ['']`. -/
def pySplit (sep : Char) : Str → List Str
  | [] => [[]]
  | c :: rest =>
    if c = sep then [] :: pySplit sep rest
    else
      match pySplit sep rest with
      | part :: parts => (c :: part) :: parts
      | [] => [[c]]

/-- Python `s.split(sep, 1)`: the part before the first separator, and
(if the separator occurs) the whole remainder after it. -/
def splitFirst (sep : Char) : Str → Str × Option Str
  | [] => ([], none)
  | c :: rest =>
    if c = sep then ([], some rest)
    else
      let r := splitFirst sep rest
      (c :: r.1, r.2)

/-- The whitespace set of Python `str.strip()` (ASCII fragment). -/
def pySpace (c : Char) : Bool :=
  c = ' ' || c = '\t' || c = '\n' || c = '\x0d' || c = '\x0b' || c = '\x0c'

/-- Python `s.strip()`: drop leading and trailing whitespace. -/
def pyStrip (s : Str) : Str :=
  ((s.dropWhile pySpace).reverse.dropWhile pySpace).reverse

/-- Python `sub in s` for strings: contiguous-substring test. -/
def strContains (s sub : Str) : Bool :=
  (s.tails.filter (fun t => sub.isPrefixOf t)) ≠ []

/-- Lookup in an association list, modelling Python `dict.get(k)`. -/
def alookup (m : List (Str × Str)) (k : Str) : Option Str :=
  (m.find? (fun kv => kv.1 = k)).map (fun kv => kv.2)

/-- Keys of an association list. -/
def akeys {β : Type} (m : List (Str × β)) : List Str := m.map (fun kv => kv.1)

/- ===================================================================
   config/session.py — cookie-string handling
   =================================================================== -/

/-- A `requests` cookie jar restricted to what the source uses of it:
an insertion-ordered name→value mapping (all cookies share the default
domain in `_parse_cookie_string`). -/
abbrev Jar := List (Str × Str)

/-- `jar.set(k, v)`: overwrite the cookie named `k` in place (a Python
dict overwrite keeps the original position), else append. -/
def jarSet (jar : Jar) (k v : Str) : Jar :=
  if jar.any (fun c => c.1 = k) then
    jar.map (fun c => if c.1 = k then (k, v) else c)
  else
    jar ++ [(k, v)]

/-- `_parse_cookie_string` (config/session.py lines 25-35): split on ";",
strip, keep parts that are non-empty and contain "=", split each at the
first "=", strip key and value, and `jar.set` the pair. -/
def parseCookieString (cookie_str : Str) : Jar :=
  let parts := ((pySplit ';' cookie_str).map pyStrip).filter (fun x => x ≠ [])
  parts.foldl
    (fun jar p =>
      match splitFirst '=' p with
      | (_, none) => jar
      | (k, some v) => jarSet jar (pyStrip k) (pyStrip v))
    []

/-- `_serialize_cookie_jar` (config/session.py lines 38-48): produce the
"k=v; k2=v2" representation; every cookie is included (the domain test
in the source is a no-op: its body is `pass`). -/
def serializeCookieJar (jar : Jar) : Str :=
  List.intercalate (str "; ") (jar.map (fun c => c.1 ++ '=' :: c.2))

/-- `_cookies_differ` (config/session.py lines 162-177): parse the env
string into a dict (later duplicates overwrite), report `true` if some
jar cookie's value differs from the env entry (or is absent there), or
some env key is missing from the jar. -/
def cookiesDiffer (env_cookie_str : Str) (jar : Jar) : Bool :=
  let env_map : List (Str × Str) :=
    (((pySplit ';' env_cookie_str).map pyStrip).filter (fun x => x ≠ [])).foldl
      (fun m p =>
        match splitFirst '=' p with
        | (_, none) => m
        | (k, some v) => jarSet m (pyStrip k) (pyStrip v))
      []
  (jar.any (fun c => alookup env_map c.1 ≠ some c.2)) ||
    (env_map.any (fun kv => ¬ jar.any (fun c => c.1 = kv.1)))

/- ===================================================================
   forum.py fetch + config/session.py refresh_session_cookies
   =================================================================== -/

/-- `_merge_cookies_to_session` / `s.cookies.update(jar)`: set every
cookie of `new` into the session jar (name-keyed in this model; all
relevant cookies share the target domain). -/
def mergeCookies (session new : Jar) : Jar :=
  new.foldl (fun acc c => jarSet acc c.1 c.2) session

/-- Session-side mutable state touched by the fetch path: the live
cookie jar of the `requests` session and the persisted `DF_COOKIES`
environment value (`_write_env_cookies` rewrites both the `.env` file
and `os.environ`). -/
structure SessState where
  jar : Jar
  env : Str
deriving DecidableEq

/-- External behaviour the fetch path depends on:
`respond url n` is the outcome of the `n`-th HTTP request of the call
when directed at `url` (`none` models a raised network exception,
`some (status, text)` a response); `solve url` is what
`_attempt_cloudscraper_refresh(url)` yields (`none` = solver missing or
failed — that function catches its own exceptions and returns `None`). -/
structure FetchWorld where
  respond : Str → Nat → Option (Nat × Str)
  solve : Str → Option Jar

/-- `refresh_session_cookies` (config/session.py lines 238-262): run the
cloudscraper solve keyed to the failing URL; on a (non-empty, since
`if new_jar:` is a truthiness test) jar, merge it into the session,
persist the serialized jar to `.env` when it differs from (or there is
no) current env value, and report success. -/
def refreshSessionCookies (solve : Str → Option Jar) (st : SessState) (failed_url : Str) :
    Bool × SessState :=
  match solve failed_url with
  | none => (false, st)
  | some new_jar =>
    if new_jar = [] then (false, st)
    else
      let jar' := mergeCookies st.jar new_jar
      let new_cookie_str := serializeCookieJar jar'
      let env' := if st.env = [] || cookiesDiffer st.env jar' then new_cookie_str else st.env
      (true, ⟨jar', env'⟩)

/-- Result of a `fetch` call, instrumented with the observable trace:
the URLs of the HTTP requests issued and the URLs handed to the
cloudscraper solve, in order. -/
structure FetchOut where
  result : Option Str
  state : SessState
  requests : List Str
  solves : List Str
deriving DecidableEq

/-- `fetch` (forum.py lines 10-31). The whole body is inside
`try/except`, so a network exception (`respond = none`) becomes `None`.
On HTTP 403 with `allow_retry`, `refresh_session_cookies(session, url)`
is invoked on the failing URL; on success the same URL is fetched once
more with `allow_retry=False`; on failure `None`. Any other non-200
status yields `None`; 200 yields the body. -/
def fetch (w : FetchWorld) (url : Str) : SessState → Bool → Nat → FetchOut
  | st, allow_retry, n =>
    match w.respond url n with
    | none => ⟨none, st, [url], []⟩
    | some (status, text) =>
      if h : status = 403 ∧ allow_retry = true then
        match refreshSessionCookies w.solve st url with
        | (true, st') =>
          let rest := fetch w url st' false (n + 1)
          ⟨rest.result, rest.state, url :: rest.requests, url :: rest.solves⟩
        | (false, st') => ⟨none, st', [url], [url]⟩
      else if status ≠ 200 then ⟨none, st, [url], []⟩
      else ⟨some text, st, [url], []⟩
termination_by st b n => cond b 1 0
decreasing_by simp_all

/- ===================================================================
   lib/storage.py — StorageManager
   =================================================================== -/

/-- JSON-able scalar values appearing in scraped records; `null` models
Python `None`. -/
inductive JVal
  | null
  | s (v : Str)
  | i (v : Int)
  | strs (v : List Str)
deriving DecidableEq

/-- A scraped record: an insertion-ordered field mapping, as handed to
`store_data` (one such record becomes one JSON line in file storage). -/
abbrev Rec := List (Str × JVal)

/-- Outcome of the collection's database handler (`insert_members` etc.,
or the generic fallback): returned truthy, returned falsy, or raised. -/
inductive HandlerOutcome
  | ok
  | failed
  | raised
deriving DecidableEq

/-- The configured database backend, abstracted as the outcome each
handler call produces. -/
structure StoreWorld where
  handler : Str → List Rec → HandlerOutcome

/-- Configuration read by `StorageManager.__init__` from config.py. -/
structure StoreConfig where
  mode : Str
  db_type : Str
  output_dir : Str

/-- The file-storage state: contents (list of records, one per appended
line) of each output path. -/
structure StorageState where
  files : Str → List Rec

/-- Path used by `_store_file`: the explicit `out_file` if given, else
`output_dir / collection.jsonl`. -/
def storagePath (cfg : StoreConfig) (collection : Str) (out_file : Option Str) : Str :=
  match out_file with
  | some f => f
  | none => cfg.output_dir ++ '/' :: collection ++ str ".jsonl"

/-- `StorageManager._store_mysql` (lib/storage.py lines 49-64): call the
dispatched handler; a raised exception is caught and reported as
`False`; otherwise `bool(success)` is returned. -/
def storeMysql (w : StoreWorld) (collection : Str) (rows : List Rec) : Bool :=
  match w.handler collection rows with
  | .ok => true
  | .failed => false
  | .raised => false

/-- `StorageManager._store_file` (lib/storage.py lines 41-47): append one
serialized record per line to the target path. -/
def storeFile (st : StorageState) (path : Str) (rows : List Rec) : StorageState :=
  ⟨fun p => if p = path then st.files p ++ rows else st.files p⟩

/-- `StorageManager.store` (lib/storage.py lines 29-39): no-op on an
empty batch; in db/mysql mode try the database handler and return on
success, else fall through (with a warning) to file storage; in any
other mode go straight to file storage. -/
def store (cfg : StoreConfig) (w : StoreWorld) (st : StorageState) (collection : Str)
    (rows : List Rec) (out_file : Option Str) : StorageState :=
  let payload := rows
  if payload = [] then st
  else
    if cfg.mode = str "db" ∧ cfg.db_type = str "mysql" then
      if storeMysql w collection payload then st
      else storeFile st (storagePath cfg collection out_file) payload
    else storeFile st (storagePath cfg collection out_file) payload

/- ===================================================================
   lib/topic.py — ThreadPost and the print-view pagination walk
   =================================================================== -/

/-- `ThreadPost` (lib/topic.py lines 17-28). -/
structure ThreadPost where
  author : Option Str
  author_id : Option Str
  timestamp : Option Str
  content : Str
  forum_id : Option Int := none
  topic_id : Option Int := none
  topic_title : Option Str := none
  page_offset : Option Int := none
deriving DecidableEq

/-- A Python field that is either a string or `None`. -/
def optS : Option Str → JVal
  | none => .null
  | some v => .s v

/-- A Python field that is either an int or `None`. -/
def optI : Option Int → JVal
  | none => .null
  | some v => .i v

/-- `ThreadPost.to_record` (lib/topic.py lines 36-47): build the full
field dict and keep exactly the entries whose value is not `None`. -/
def ThreadPost.to_record (p : ThreadPost) : Rec :=
  let record : Rec :=
    [(str "author", optS p.author),
     (str "author_id", optS p.author_id),
     (str "timestamp", optS p.timestamp),
     (str "content", .s p.content),
     (str "forum_id", optI p.forum_id),
     (str "topic_id", optI p.topic_id),
     (str "topic_title", optS p.topic_title),
     (str "page_offset", optI p.page_offset)]
  record.filter (fun kv => kv.2 ≠ .null)

/-- The context dict the thread-scraping callers pass
(`scrape_topic` / `scrape_thread_from_url` supply exactly the keys
forum_id, topic_id, topic_title, possibly with `None` values; `None`
values and absent keys coincide observably because freshly parsed posts
carry `None` in those fields). -/
structure TopicContext where
  forum_id : Option Int := none
  topic_id : Option Int := none
  topic_title : Option Str := none
deriving DecidableEq

/-- `post.with_context(page_offset=offset, **context)`
(lib/topic.py lines 30-34 as used at line 172). -/
def ThreadPost.with_context (p : ThreadPost) (offset : Int) (ctx : TopicContext) : ThreadPost :=
  { p with
    page_offset := some offset
    forum_id := ctx.forum_id
    topic_id := ctx.topic_id
    topic_title := ctx.topic_title }

/-- Page signature: the ordered tuple of (author, timestamp, content)
over the page's parsed posts (lib/topic.py line 166). -/
abbrev Sig := List (Option Str × Option Str × Str)

/-- Signature of a parsed page. -/
def postSig (posts : List ThreadPost) : Sig :=
  posts.map (fun p => (p.author, p.timestamp, p.content))

/-- What one page fetch-and-parse yields: the posts and the optional
site error box returned by `parse_print_view`. -/
structure PageOutcome where
  posts : List ThreadPost
  error : Option Str
deriving DecidableEq

/-- Observable behaviour of one `scrape_print_view` walk: the returned
`all_posts`, the page offsets requested (in order), and the record
batches handed to `store_data` (in order). -/
structure ScrapeOut where
  all_posts : List ThreadPost
  requested : List Int
  stored : List (List Rec)
deriving DecidableEq

/-- The hard-stop test `stop is not None and offset > stop`
(lib/topic.py line 147). -/
def stopExceeded (stop : Option Int) (offset : Int) : Bool :=
  match stop with
  | some s => decide (offset > s)
  | none => false

/-- The `while True` body of `scrape_print_view` (lib/topic.py lines
146-182), fuel-indexed. `oracle offset` is the composite of
`session.make_request(build_page_url(base, offset))` and
`parse_print_view` on its content (`none` = failed fetch). Break
conditions in source order: hard stop exceeded, failed fetch, error
box, empty page, duplicate signature; then store, accumulate, advance
by `step` (with the `step <= 0` break after advancing). Exhausted fuel
returns the empty trace (the theorems below always supply enough). -/
def scrapeLoop (oracle : Int → Option PageOutcome) (stop : Option Int) (step : Int)
    (ctx : TopicContext) : Nat → Int → Option Sig → ScrapeOut
  | 0, _, _ => ⟨[], [], []⟩
  | fuel + 1, offset, prev =>
    if stopExceeded stop offset then ⟨[], [], []⟩
    else
      match oracle offset with
      | none => ⟨[], [offset], []⟩
      | some pg =>
        if pg.error ≠ none then ⟨[], [offset], []⟩
        else if pg.posts = [] then ⟨[], [offset], []⟩
        else
          let sig := postSig pg.posts
          if prev = some sig then ⟨[], [offset], []⟩
          else
            let enriched := pg.posts.map (fun p => p.with_context offset ctx)
            let batch := enriched.map ThreadPost.to_record
            if step ≤ 0 then ⟨enriched, [offset], [batch]⟩
            else
              let rest := scrapeLoop oracle stop step ctx fuel (offset + step) (some sig)
              ⟨enriched ++ rest.all_posts, offset :: rest.requested, batch :: rest.stored⟩

/-- `scrape_print_view` entry: `offset = max(0, start)`, no previous
signature. -/
def scrapePrintView (oracle : Int → Option PageOutcome) (stop : Option Int) (step : Int)
    (ctx : TopicContext) (fuel : Nat) (start : Int) : ScrapeOut :=
  scrapeLoop oracle stop step ctx fuel (max 0 start) none

/-- A concrete post used by the crawl-walk witnesses. -/
def witPost : ThreadPost :=
  ThreadPost.mk (some (str "a")) none (some (str "t")) (str "hi") none none none none

/-- Witness page sequence: one post at offset 0, an empty page at
offset 10, nothing served beyond. -/
def witOracleEmpty : Int → Option PageOutcome :=
  fun o => if o = 0 then some ⟨[witPost], none⟩
    else if o = 10 then some ⟨[], none⟩ else none

/-- Witness page sequence: the same page served at offsets 0 and 10
(offset clamped past the end), nothing beyond. -/
def witOracleDup : Int → Option PageOutcome :=
  fun o => if o = 0 then some ⟨[witPost], none⟩
    else if o = 10 then some ⟨[witPost], none⟩ else none

/- ===================================================================
   lib/members.py — MemberProfile
   =================================================================== -/

/-- `MemberProfile` (lib/members.py lines 23-37). -/
structure MemberProfile where
  uid : Int
  username : Str
  rank : Option Str := none
  join_date : Option Str := none
  total_posts : Option Str := none
  location : Option Str := none
  warnings : Option Str := none
  contact : Option Str := none
  signature : Option Str := none
  avatar : Option Str := none
  links : List Str := []
deriving DecidableEq

/-- `MemberProfile.to_dict` (lib/members.py lines 39-53): build the full
field dict (`links` becomes a list, never `None`) and keep exactly the
entries whose value is not `None`. -/
def MemberProfile.to_dict (m : MemberProfile) : Rec :=
  let data : Rec :=
    [(str "uid", .i m.uid),
     (str "username", .s m.username),
     (str "rank", optS m.rank),
     (str "join_date", optS m.join_date),
     (str "total_posts", optS m.total_posts),
     (str "location", optS m.location),
     (str "warnings", optS m.warnings),
     (str "contact", optS m.contact),
     (str "signature", optS m.signature),
     (str "avatar", optS m.avatar),
     (str "links", .strs m.links)]
  data.filter (fun kv => kv.2 ≠ .null)

/- ===================================================================
   lib/session_manager.py — the strict login probe
   =================================================================== -/

/-- The probe page as `ensure_logged_in` observes it on its non-forced,
non-raising path: how many elements each of the three
`query_selector_all` calls finds, and the page content string. -/
structure ProbePage where
  logout_links : Nat
  ucp_links : Nat
  login_forms : Nat
  content : Str
deriving DecidableEq

/-- The fixed indicator set of the strict text check
(lib/session_manager.py line 139). -/
def strictIndicators : List Str :=
  [str "logout", str "user control panel", str "my messages"]

/-- `found_indicators` (lib/session_manager.py line 140): the indicators
occurring as substrings of the lowercased content. -/
def foundIndicators (content : Str) : List Str :=
  strictIndicators.filter (fun ind => strContains (content.map Char.toLower) ind)

/-- The login-status probe of `ensure_logged_in`
(lib/session_manager.py lines 101-147), non-forced path: a found logout
link reports logged-in; else a found UCP profile link reports
logged-in; else a found login form reports NOT logged-in; else
logged-in iff at least 2 textual indicators are found. -/
def checkLoggedIn (p : ProbePage) : Bool :=
  if p.logout_links > 0 then true
  else if p.ucp_links > 0 then true
  else if p.login_forms > 0 then false
  else decide ((foundIndicators p.content).length ≥ 2)

/- ===================================================================
   urllib.parse model, as used by lib/topic.py ensure_print_view.
   Characters stand for bytes (the theorems that need it assume code
   points below 256; URLs are byte strings, and a percent sequence
   decodes to the raw byte in this model).
   =================================================================== -/

/-- The characters `urllib.parse.quote` never encodes
(`_ALWAYS_SAFE`: ASCII letters, digits, and `_.-~`). -/
def alwaysSafe (c : Char) : Bool :=
  c.isAlpha || c.isDigit || c = '_' || c = '.' || c = '-' || c = '~'

/-- Upper-case hex digit for a nibble. -/
def hexUpper (n : Nat) : Char :=
  if n < 10 then Char.ofNat ('0'.toNat + n) else Char.ofNat ('A'.toNat + (n - 10))

/-- `urllib.parse.quote_plus` with `safe=''` (what `urlencode` applies
to every key and value): safe characters pass through, space becomes
`+`, anything else becomes `%XX`. -/
def quotePlus : Str → Str
  | [] => []
  | c :: rest =>
    (if alwaysSafe c then [c]
     else if c = ' ' then ['+']
     else ['%', hexUpper (c.toNat / 16), hexUpper (c.toNat % 16)]) ++ quotePlus rest

/-- Value of one hex digit (codes 48-57 are `0`-`9`, 97-102 are
`a`-`f`, 65-70 are `A`-`F`), case-insensitive, as `unquote` accepts. -/
def hexVal (c : Char) : Option Nat :=
  if 48 ≤ c.toNat ∧ c.toNat ≤ 57 then some (c.toNat - 48)
  else if 97 ≤ c.toNat ∧ c.toNat ≤ 102 then some (c.toNat - 97 + 10)
  else if 65 ≤ c.toNat ∧ c.toNat ≤ 70 then some (c.toNat - 65 + 10)
  else none

/-- `urllib.parse.unquote` at the byte level: a `%` followed by two hex
digits decodes to that byte; an invalid sequence keeps the `%` literal
and scanning resumes right after it (matching the CPython behaviour of
splitting on `%`). -/
def unquoteAux : Str → Str
  | [] => []
  | c :: h1 :: h2 :: rest =>
    if c = '%' then
      match hexVal h1, hexVal h2 with
      | some a, some b => Char.ofNat (16 * a + b) :: unquoteAux rest
      | _, _ => '%' :: unquoteAux (h1 :: h2 :: rest)
    else c :: unquoteAux (h1 :: h2 :: rest)
  | c :: rest =>
    if c = '%' then '%' :: unquoteAux rest else c :: unquoteAux rest

/-- `urllib.parse.unquote_plus`: `+` becomes space, then percent-decode. -/
def unquotePlus (s : Str) : Str :=
  unquoteAux (s.map (fun c => if c = '+' then ' ' else c))

/-- `parse_qsl(qs, keep_blank_values=True)`: split on `&`, skip empty
chunks, split each chunk at the first `=` (a chunk without `=` gets an
empty value because blank values are kept), and unquote both sides. -/
def parseQsl (qs : Str) : List (Str × Str) :=
  (pySplit '&' qs).filterMap (fun chunk =>
    if chunk = [] then none
    else
      let nv := splitFirst '=' chunk
      some (unquotePlus nv.1, unquotePlus (nv.2.getD [])))

/-- The dict-of-lists produced by `parse_qs`, insertion-ordered. -/
abbrev QDict := List (Str × List Str)

/-- One step of `parse_qs`'s dict building:
`parsed_result[name].append(value)` or `parsed_result[name] = [value]`. -/
def qsInsert (d : QDict) (k : Str) (v : Str) : QDict :=
  if d.any (fun kv => kv.1 = k) then
    d.map (fun kv => if kv.1 = k then (k, kv.2 ++ [v]) else kv)
  else d ++ [(k, [v])]

/-- `parse_qs(qs, keep_blank_values=True)`. -/
def parseQs (qs : Str) : QDict :=
  (parseQsl qs).foldl (fun d kv => qsInsert d kv.1 kv.2) []

/-- `urlencode(params, doseq=True)`: one `quoted-key=quoted-value`
chunk per value, joined with `&`, in dict order. -/
def urlencodeSeq (d : QDict) : Str :=
  List.intercalate ['&']
    ((d.map (fun kv => kv.2.map (fun v => quotePlus kv.1 ++ '=' :: quotePlus v))).flatten)

/-- Python dict assignment `d[k] = v`: overwrite in place, else append. -/
def dictSet (d : QDict) (k : Str) (v : List Str) : QDict :=
  if d.any (fun kv => kv.1 = k) then
    d.map (fun kv => if kv.1 = k then (k, v) else kv)
  else d ++ [(k, v)]

/-- Python `d.pop(k, None)`'s effect on the mapping. -/
def dictPop (d : QDict) (k : Str) : QDict :=
  d.filter (fun kv => kv.1 ≠ k)

/-- Python `d.get(k)`. -/
def dictGet (d : QDict) (k : Str) : Option (List Str) :=
  (d.find? (fun kv => kv.1 = k)).map (fun kv => kv.2)

/-- The six components of `urlparse`. The embedding works on parsed
URLs; the scheme is stored lowercased, as `urlparse` produces it. -/
structure Url where
  scheme : Str
  netloc : Str
  path : Str
  params : Str
  query : Str
  fragment : Str
deriving DecidableEq

/-- The all-empty URL (what an empty string parses to). -/
def emptyUrl : Url := ⟨[], [], [], [], [], []⟩

/-- `urllib.parse.uses_relative`. -/
def usesRelative : List Str :=
  [str "", str "ftp", str "http", str "gopher", str "nntp", str "imap",
   str "wais", str "file", str "https", str "shttp", str "mms",
   str "prospero", str "rtsp", str "rtspu", str "sftp",
   str "svn", str "svn+ssh", str "ws", str "wss"]

/-- `urllib.parse.uses_netloc`. -/
def usesNetloc : List Str :=
  [str "", str "ftp", str "http", str "gopher", str "nntp", str "telnet",
   str "imap", str "wais", str "file", str "mms", str "https", str "shttp",
   str "snews", str "prospero", str "rtsp", str "rtspu", str "rsync",
   str "svn", str "svn+ssh", str "sftp", str "nfs", str "git", str "git+ssh",
   str "ws", str "wss", str "itms-services"]

/-- The slice assignment `segments[1:-1] = filter(None, segments[1:-1])`
in `urljoin`: drop empty segments except the first and last. -/
def keepLastFilter : List Str → List Str
  | [] => []
  | [x] => [x]
  | x :: rest => if x = [] then keepLastFilter rest else x :: keepLastFilter rest

/-- Apply the middle filter to a whole segment list. -/
def filterMiddle : List Str → List Str
  | [] => []
  | first :: rest => first :: keepLastFilter rest

/-- The `..`/`.` resolution loop of `urljoin` plus its trailing-slash
post-processing and final join (`'/'.join(resolved_path) or '/'`). -/
def joinResolve (segments : List Str) : Str :=
  let resolved := segments.foldl
    (fun acc seg =>
      if seg = str ".." then acc.dropLast
      else if seg = str "." then acc
      else acc ++ [seg]) []
  let resolved :=
    if segments.getLast? = some (str ".") ∨ segments.getLast? = some (str "..") then
      resolved ++ [[]]
    else resolved
  let joined := List.intercalate ['/'] resolved
  if joined = [] then ['/'] else joined

/-- The segment list `urljoin` resolves: the url's own segments if its
path is rooted, else the base's directory segments prepended and the
middle de-emptied. -/
def urljoinSegments (bpath upath : Str) : List Str :=
  if upath.head? = some '/' then pySplit '/' upath
  else
    let base_parts := pySplit '/' bpath
    let base_parts := if base_parts.getLast? ≠ some [] then base_parts.dropLast else base_parts
    filterMiddle (base_parts ++ pySplit '/' upath)

/-- `urllib.parse.urljoin`, on parsed components: empty base or empty
url short-circuit; a url whose (defaulted) scheme differs from the
base's or is not in `uses_relative` is returned as-is; a url with its
own netloc keeps all its components (scheme defaulted); otherwise the
base's netloc is adopted and an empty path-and-params inherits the
base's path, params, and (if the url has none) query; otherwise the
paths are merged and resolved. -/
def urljoin (base u : Url) : Url :=
  if base = emptyUrl then u
  else if u = emptyUrl then base
  else
    let scheme := if u.scheme = [] then base.scheme else u.scheme
    if scheme ≠ base.scheme ∨ scheme ∉ usesRelative then u
    else if scheme ∈ usesNetloc ∧ u.netloc ≠ [] then
      ⟨scheme, u.netloc, u.path, u.params, u.query, u.fragment⟩
    else
      let netloc := if scheme ∈ usesNetloc then base.netloc else u.netloc
      if u.path = [] ∧ u.params = [] then
        ⟨scheme, netloc, base.path, base.params,
         (if u.query = [] then base.query else u.query), u.fragment⟩
      else
        ⟨scheme, netloc, joinResolve (urljoinSegments base.path u.path),
         u.params, u.query, u.fragment⟩

/-- `ensure_print_view` (lib/topic.py lines 56-64): join onto the
configured base, force `view=print`, drop `start`, re-encode the
query. -/
def ensurePrintView (base u : Url) : Url :=
  let parsed := urljoin base u
  let params := parseQs parsed.query
  let params := dictSet params (str "view") [str "print"]
  let params := dictPop params (str "start")
  { parsed with query := urlencodeSeq params }

/- ===================================================================
   Theorems
   =================================================================== -/

/-- C10: every record handed to storage by the thread and member
scrapers contains no None-valued field: `ThreadPost.to_record` and
`MemberProfile.to_dict` drop every key whose value is `None`, so every
key present in a stored record maps to a non-null value. -/
theorem stored_records_have_no_null_values :
    (∀ (p : ThreadPost) (kv : Str × JVal), kv ∈ p.to_record → kv.2 ≠ JVal.null) ∧
    (∀ (m : MemberProfile) (kv : Str × JVal), kv ∈ m.to_dict → kv.2 ≠ JVal.null) := by
  constructor
  · intro p kv hkv
    simp only [ThreadPost.to_record, List.mem_filter, decide_not] at hkv
    simpa using hkv.2
  · intro m kv hkv
    simp only [MemberProfile.to_dict, List.mem_filter, decide_not] at hkv
    simpa using hkv.2

/-- Witness for C10 at a concrete post: the author field survives the
filter and indeed carries a non-null value. -/
theorem stored_records_have_no_null_values_witness :
    (str "author", JVal.s (str "alice")) ∈
      (ThreadPost.mk (some (str "alice")) none none (str "hi") none none none none).to_record ∧
    JVal.s (str "alice") ≠ JVal.null :=
  ⟨by decide,
   stored_records_have_no_null_values.1
     (ThreadPost.mk (some (str "alice")) none none (str "hi") none none none none)
     (str "author", JVal.s (str "alice")) (by decide)⟩

/-- C4 fails on the code: a probe page with a logout link only (no UCP
link, no login form, no textual indicator at all) is reported
authenticated, although neither "logout control AND account-control-
panel markers" nor "two textual indicators" holds — a single strong
signal suffices. -/
theorem probe_two_signal_counterexample :
    checkLoggedIn (ProbePage.mk 1 0 0 []) = true ∧
    ¬(((ProbePage.mk 1 0 0 []).logout_links > 0 ∧ (ProbePage.mk 1 0 0 []).ucp_links > 0) ∨
      (foundIndicators (ProbePage.mk 1 0 0 []).content).length ≥ 2) := by
  decide

/-- C4 (amended): the probe reports AUTHENTICATED exactly when a logout
link element is present, or a UCP profile link element is present, or
(no login form is present and at least two textual indicators of the
fixed set occur); each strong element signal alone already suffices. -/
theorem checkLoggedIn_iff (p : ProbePage) :
    checkLoggedIn p = true ↔
      (p.logout_links > 0 ∨ p.ucp_links > 0 ∨
        (p.login_forms = 0 ∧ (foundIndicators p.content).length ≥ 2)) := by
  unfold checkLoggedIn
  split_ifs with h1 h2 h3 <;> simp_all <;> omega

/-- C5 fails on the code as universally stated: a probe page that
contains a login form but also a logout link element is reported
authenticated, because the element checks run before the login-form
check. -/
theorem login_form_counterexample :
    (ProbePage.mk 1 0 1 (str "logout")).login_forms > 0 ∧
    checkLoggedIn (ProbePage.mk 1 0 1 (str "logout")) = true := by
  decide

/-- C5 (amended): on a probe page containing a login form and no strong
link element (no logout link, no UCP link), the probe reports
NOT-authenticated, regardless of how many textual indicator keywords
occur in the page content — the login-form check short-circuits before
the textual-indicator count is consulted. -/
theorem login_form_short_circuits (p : ProbePage)
    (hform : p.login_forms > 0) (hlogout : p.logout_links = 0) (hucp : p.ucp_links = 0) :
    checkLoggedIn p = false := by
  unfold checkLoggedIn
  split_ifs <;> first | rfl | (exfalso; omega)

/-- Witness for C5 (amended) at a page whose content carries all three
textual indicators and still probes as NOT logged in. -/
theorem login_form_short_circuits_witness :
    (foundIndicators (str "logout user control panel my messages")).length ≥ 2 ∧
    checkLoggedIn (ProbePage.mk 0 0 1 (str "logout user control panel my messages")) = false :=
  ⟨by decide,
   login_form_short_circuits (ProbePage.mk 0 0 1 (str "logout user control panel my messages"))
     (by decide) (by decide) (by decide)⟩

/-- C2: in database mode, whenever the collection's handler raises or
reports failure on a non-empty batch, `store` appends exactly that
batch — one record per line, none lost — to the collection's file
backend, and leaves every other file untouched. -/
theorem store_falls_back_to_file (cfg : StoreConfig) (w : StoreWorld) (st : StorageState)
    (coll : Str) (rows : List Rec) (out : Option Str)
    (hmode : cfg.mode = str "db") (hdb : cfg.db_type = str "mysql")
    (hne : rows ≠ [])
    (hfail : w.handler coll rows = .failed ∨ w.handler coll rows = .raised) :
    (store cfg w st coll rows out).files (storagePath cfg coll out) =
      st.files (storagePath cfg coll out) ++ rows ∧
    (∀ p, p ≠ storagePath cfg coll out → (store cfg w st coll rows out).files p = st.files p) := by
  have hms : storeMysql w coll rows = false := by
    unfold storeMysql
    rcases hfail with h | h <;> rw [h]
  unfold store storeFile
  simp only [hne, if_false, hmode, hdb, and_self, if_true, hms, Bool.false_eq_true]
  constructor
  · simp
  · intro p hp
    simp [hp]

/-- Witness for C2: a 3-record "members" batch whose handler raises
lands, in full, in the members file. -/
theorem store_falls_back_to_file_witness :
    ([[(str "uid", JVal.i 1)], [(str "uid", JVal.i 2)], [(str "uid", JVal.i 3)]] : List Rec) ≠ [] ∧
    (store (StoreConfig.mk (str "db") (str "mysql") (str "output"))
        (StoreWorld.mk (fun _ _ => .raised)) (StorageState.mk (fun _ => []))
        (str "members")
        [[(str "uid", JVal.i 1)], [(str "uid", JVal.i 2)], [(str "uid", JVal.i 3)]]
        none).files
      (storagePath (StoreConfig.mk (str "db") (str "mysql") (str "output")) (str "members") none) =
      (StorageState.mk (fun _ => [])).files
        (storagePath (StoreConfig.mk (str "db") (str "mysql") (str "output")) (str "members") none)
        ++ [[(str "uid", JVal.i 1)], [(str "uid", JVal.i 2)], [(str "uid", JVal.i 3)]] :=
  ⟨by decide,
   (store_falls_back_to_file (StoreConfig.mk (str "db") (str "mysql") (str "output"))
     (StoreWorld.mk (fun _ _ => .raised)) (StorageState.mk (fun _ => []))
     (str "members")
     [[(str "uid", JVal.i 1)], [(str "uid", JVal.i 2)], [(str "uid", JVal.i 3)]]
     none rfl rfl (by decide) (Or.inr rfl)).1⟩

theorem alookup_mem {m : List (Str × Str)} {k v : Str} (h : alookup m k = some v) :
    (k, v) ∈ m := by
  unfold alookup at h
  rcases ho : m.find? (fun kv => kv.1 = k) with _ | kv
  · rw [ho] at h; cases h
  · rw [ho] at h
    have hmem := List.mem_of_find?_eq_some ho
    have hk : kv.1 = k := by simpa using List.find?_some ho
    have hv : kv.2 = v := by simpa using h
    have hkv : kv = (k, v) := by
      rcases kv with ⟨a, b⟩
      simp_all
    rwa [hkv] at hmem

theorem alookup_of_mem_nodup {m : List (Str × Str)} (hnd : (akeys m).Nodup)
    {k v : Str} (h : (k, v) ∈ m) : alookup m k = some v := by
  induction m with
  | nil => cases h
  | cons c rest ih =>
    rcases c with ⟨k', v'⟩
    simp only [akeys, List.map_cons, List.nodup_cons] at hnd
    rcases List.mem_cons.mp h with heq | hrest
    · cases heq
      simp [alookup]
    · by_cases hk : k' = k
      · exfalso
        apply hnd.1
        rw [hk]
        exact List.mem_map_of_mem (fun kv => kv.1) hrest
      · have := ih hnd.2 hrest
        simpa [alookup, List.find?_cons, hk] using this

theorem alookup_eq_none_iff {m : List (Str × Str)} {k : Str} :
    alookup m k = none ↔ k ∉ akeys m := by
  constructor
  · intro h hk
    unfold akeys at hk
    rcases List.mem_map.mp hk with ⟨kv, hkv, hfst⟩
    have hn : m.find? (fun kv => kv.1 = k) = none := by
      rcases ho : m.find? (fun kv => kv.1 = k) with _ | x
      · exact ho
      · unfold alookup at h; rw [ho] at h; cases h
    rw [List.find?_eq_none] at hn
    exact absurd (by simp [hfst]) (hn kv hkv)
  · intro h
    unfold alookup
    rcases ho : m.find? (fun kv => kv.1 = k) with _ | x
    · rw [ho]; rfl
    · exfalso
      have hmem := List.mem_of_find?_eq_some ho
      have hx : x.1 = k := by simpa using List.find?_some ho
      exact h (List.mem_map.mpr ⟨x, hmem, hx⟩)

theorem akeys_jarSet (m : Jar) (k v : Str) :
    akeys (jarSet m k v) = if m.any (fun c => c.1 = k) then akeys m else akeys m ++ [k] := by
  unfold jarSet akeys
  split
  · rw [List.map_map]
    apply List.map_congr_left
    intro c _
    by_cases hc : c.1 = k <;> simp [hc]
  · simp

theorem jarSet_keys_nodup {m : Jar} (h : (akeys m).Nodup) (k v : Str) :
    (akeys (jarSet m k v)).Nodup := by
  rw [akeys_jarSet]
  split
  · exact h
  · rename_i hany
    rw [List.nodup_append]
    refine ⟨h, List.nodup_singleton k, ?_⟩
    intro a ha hb
    simp only [List.mem_singleton] at hb
    subst hb
    rcases List.mem_map.mp ha with ⟨c, hc, hfst⟩
    apply hany
    rw [List.any_eq_true]
    exact ⟨c, hc, by simp [hfst]⟩

theorem parseCookieString_keys_nodup (s : Str) : (akeys (parseCookieString s)).Nodup := by
  unfold parseCookieString
  generalize ((pySplit ';' s).map pyStrip).filter (fun x => x ≠ []) = parts
  have : ∀ (ps : List Str) (m : Jar), (akeys m).Nodup →
      (akeys (ps.foldl
        (fun jar p =>
          match splitFirst '=' p with
          | (_, none) => jar
          | (k, some v) => jarSet jar (pyStrip k) (pyStrip v)) m)).Nodup := by
    intro ps
    induction ps with
    | nil => intro m hm; exact hm
    | cons p rest ih =>
      intro m hm
      simp only [List.foldl_cons]
      rcases hsp : splitFirst '=' p with ⟨a, b⟩
      cases b
      · exact ih m hm
      · exact ih _ (jarSet_keys_nodup hm _ _)
  exact this parts [] List.nodup_nil

/-- C6: for a persisted delimited cookie string A and an active jar B
with unique cookie names, `_cookies_differ(A, B)` is false exactly when
the parsed A and B agree as mappings — identical key sets and identical
values for every key; it is true as soon as some key's value differs or
a key of one side is missing from the other. -/
theorem cookiesDiffer_false_iff (env : Str) (jar : Jar) (hnd : (akeys jar).Nodup) :
    cookiesDiffer env jar = false ↔
      ∀ k, alookup (parseCookieString env) k = alookup jar k := by
  have hm : (akeys (parseCookieString env)).Nodup := parseCookieString_keys_nodup env
  have hswap : cookiesDiffer env jar =
      ((jar.any fun c => alookup (parseCookieString env) c.1 ≠ some c.2) ||
        ((parseCookieString env).any fun kv => ¬ jar.any fun c => c.1 = kv.1)) := rfl
  rw [hswap]
  rw [Bool.or_eq_false_iff]
  constructor
  · rintro ⟨h1, h2⟩ k
    rw [List.any_eq_false] at h1 h2
    by_cases hk : k ∈ akeys jar
    · rcases List.mem_map.mp hk with ⟨c, hc, hfst⟩
      have hc2 : alookup jar k = some c.2 := by
        apply alookup_of_mem_nodup hnd
        rcases c with ⟨k', v'⟩
        cases hfst
        exact hc
      have := h1 c hc
      simp only [decide_eq_true_eq, not_not] at this
      rw [hc2, ← hfst]
      exact this
    · rw [alookup_eq_none_iff.mpr hk]
      rcases ha : alookup (parseCookieString env) k with _ | v
      · rfl
      · exfalso
        have hmem := alookup_mem ha
        have := h2 _ hmem
        simp only [decide_eq_true_eq, not_not] at this
        rw [List.any_eq_true] at this
        rcases this with ⟨c, hc, hck⟩
        simp only [decide_eq_true_eq] at hck
        exact hk (List.mem_map.mpr ⟨c, hc, hck⟩)
  · intro h
    constructor
    · rw [List.any_eq_false]
      intro c hc
      have hj : alookup jar c.1 = some c.2 := by
        apply alookup_of_mem_nodup hnd
        rcases c with ⟨k', v'⟩; exact hc
      have hm' : alookup (parseCookieString env) c.1 = some c.2 := by
        rw [h c.1]; exact hj
      rw [hm']
      simp
    · rw [List.any_eq_false]
      intro kv hkv
      have h1 : alookup (parseCookieString env) kv.1 = some kv.2 := by
        apply alookup_of_mem_nodup hm
        rcases kv with ⟨k', v'⟩; exact hkv
      have h2 : alookup jar kv.1 = some kv.2 := by rw [← h kv.1]; exact h1
      have hmem := alookup_mem h2
      simp only [decide_eq_true_eq, not_not]
      rw [List.any_eq_true]
      exact ⟨(kv.1, kv.2), hmem, by simp⟩

/-- Witness for C6 at a concrete pair: an env string and a jar holding
the same two cookies. -/
theorem cookiesDiffer_false_iff_witness :
    (akeys [(str "a", str "1"), (str "b", str "2")]).Nodup ∧
    (cookiesDiffer (str "a=1; b=2") [(str "a", str "1"), (str "b", str "2")] = false ↔
      ∀ k, alookup (parseCookieString (str "a=1; b=2")) k =
        alookup [(str "a", str "1"), (str "b", str "2")] k) :=
  ⟨by decide,
   cookiesDiffer_false_iff (str "a=1; b=2") [(str "a", str "1"), (str "b", str "2")] (by decide)⟩

theorem fetch_exc {w : FetchWorld} {url : Str} {st : SessState} {b : Bool} {n : Nat}
    (hr : w.respond url n = none) : fetch w url st b n = ⟨none, st, [url], []⟩ := by
  unfold fetch
  rw [hr]

theorem fetch_200 {w : FetchWorld} {url : Str} {st : SessState} {b : Bool} {n : Nat} {t : Str}
    (hr : w.respond url n = some (200, t)) : fetch w url st b n = ⟨some t, st, [url], []⟩ := by
  unfold fetch
  rw [hr]
  simp

theorem fetch_non200 {w : FetchWorld} {url : Str} {st : SessState} {b : Bool} {n : Nat}
    {s : Nat} {t : Str} (hr : w.respond url n = some (s, t)) (hs : s ≠ 200)
    (h403 : ¬(s = 403 ∧ b = true)) : fetch w url st b n = ⟨none, st, [url], []⟩ := by
  unfold fetch
  rw [hr]
  dsimp only
  rw [dif_neg h403]
  simp [hs]

theorem fetch_403_retry {w : FetchWorld} {url : Str} {st : SessState} {n : Nat} {t : Str}
    (hr : w.respond url n = some (403, t)) :
    fetch w url st true n =
      match refreshSessionCookies w.solve st url with
      | (true, st') =>
        ⟨(fetch w url st' false (n + 1)).result, (fetch w url st' false (n + 1)).state,
         url :: (fetch w url st' false (n + 1)).requests,
         url :: (fetch w url st' false (n + 1)).solves⟩
      | (false, st') => ⟨none, st', [url], [url]⟩ := by
  conv_lhs => unfold fetch
  rw [hr]
  dsimp only
  rw [dif_pos ⟨rfl, rfl⟩]

theorem fetch_false_parts (w : FetchWorld) (url : Str) (st : SessState) (n : Nat) :
    (fetch w url st false n).requests = [url] ∧
    (fetch w url st false n).solves = [] ∧
    (fetch w url st false n).state = st ∧
    (∀ b, (fetch w url st false n).result = some b → w.respond url n = some (200, b)) := by
  rcases hr : w.respond url n with _ | ⟨s, t⟩
  · rw [fetch_exc hr]
    simp
  · by_cases hs : s = 200
    · subst hs
      rw [fetch_200 hr]
      simp [hr]
    · rw [fetch_non200 hr hs (by simp)]
      simp

theorem refresh_success {w : FetchWorld} {st : SessState} {u : Str} {j : Jar}
    (hs : w.solve u = some j) (hj : j ≠ []) :
    (refreshSessionCookies w.solve st u).1 = true ∧
    (refreshSessionCookies w.solve st u).2.jar = mergeCookies st.jar j := by
  unfold refreshSessionCookies
  rw [hs]
  simp [hj]

/-- C1: on an HTTP 403, `fetch(u)` solves against the failing URL `u`
itself, retries `u` at most once with refresh-retries disabled on the
retry, and never runs a second refresh cycle in one call; every request
it issues targets `u`; it only returns page content some issued request
answered with HTTP 200 (so total failure yields `None`, and exceptions
are absorbed into `None` rather than raised); and a 403 followed by a
successful solve and a 200 yields exactly one retry, the merged
refreshed cookies in the session, and the page content. -/
theorem fetch_403_single_refresh (w : FetchWorld) (url : Str) (st : SessState) (n : Nat)
    (t body : Str) (j : Jar) :
    ((fetch w url st true n).requests.length ≤ 2 ∧
     (∀ u ∈ (fetch w url st true n).requests, u = url) ∧
     (fetch w url st true n).solves.length ≤ 1 ∧
     (∀ u ∈ (fetch w url st true n).solves, u = url)) ∧
    (∀ b, (fetch w url st true n).result = some b →
      w.respond url n = some (200, b) ∨ w.respond url (n + 1) = some (200, b)) ∧
    (w.respond url n = some (403, t) → w.solve url = some j → j ≠ [] →
      w.respond url (n + 1) = some (200, body) →
      (fetch w url st true n).result = some body ∧
      (fetch w url st true n).requests = [url, url] ∧
      (fetch w url st true n).solves = [url] ∧
      (fetch w url st true n).state.jar = mergeCookies st.jar j) := by
  rcases hr : w.respond url n with _ | ⟨s, t'⟩
  · rw [fetch_exc hr]
    refine ⟨⟨by simp, by simp, by simp, by simp⟩, by simp, ?_⟩
    intro h403
    simp at h403
  · by_cases hs403 : s = 403
    · subst hs403
      rw [fetch_403_retry hr]
      rcases hR : refreshSessionCookies w.solve st url with ⟨rb, st'⟩
      cases rb
      · simp only
        refine ⟨⟨by simp, by simp, by simp, by simp⟩, by simp, ?_⟩
        intro _ hsolve hj _
        have hsr := @refresh_success w st url j hsolve hj
        rw [hR] at hsr
        simp at hsr
      · simp only
        obtain ⟨hreq, hsol, hstate, hres⟩ := fetch_false_parts w url st' (n + 1)
        refine ⟨⟨?_, ?_, ?_, ?_⟩, ?_, ?_⟩
        · simp [hreq]
        · intro u hu
          rcases List.mem_cons.mp hu with h | h
          · exact h
          · rw [hreq] at h; simpa using h
        · simp [hsol]
        · intro u hu
          rcases List.mem_cons.mp hu with h | h
          · exact h
          · rw [hsol] at h; cases h
        · intro b hb
          exact Or.inr (hres b hb)
        · intro h403 hsolve hj h200
          have hmerge := @refresh_success w st url j hsolve hj
          rw [hR] at hmerge
          simp only at hmerge
          have hfe := @fetch_200 w url st' false (n + 1) body h200
          rw [hfe]
          refine ⟨rfl, rfl, rfl, hmerge.2⟩
    · rcases eq_or_ne s 200 with h200 | hne
      · subst h200
        rw [fetch_200 hr]
        refine ⟨⟨by simp, by simp, by simp, by simp⟩, ?_, ?_⟩
        · intro b hb
          obtain rfl : t' = b := by simpa using hb
          exact Or.inl rfl
        · intro h403
          injection h403 with hpair
          injection hpair with h1 h2
          exact absurd h1 (by decide)
      · rw [fetch_non200 hr hne (by simp [hs403])]
        refine ⟨⟨by simp, by simp, by simp, by simp⟩, by simp, ?_⟩
        intro h403
        injection h403 with hpair
        injection hpair with h1 h2
        exact absurd h1 hs403

/-- Witness for C1: a single 403 answered by a successful solve and a
200 on the retry delivers the page, with exactly two requests to the
same URL and one solve keyed to it. -/
theorem fetch_403_single_refresh_witness :
    (FetchWorld.mk
        (fun _ k => if k = 0 then some (403, str "blocked") else some (200, str "page"))
        (fun _ => some [(str "cf", str "tok")])).respond (str "u") 0 = some (403, str "blocked") ∧
    (FetchWorld.mk
        (fun _ k => if k = 0 then some (403, str "blocked") else some (200, str "page"))
        (fun _ => some [(str "cf", str "tok")])).respond (str "u") 1 = some (200, str "page") ∧
    (fetch (FetchWorld.mk
        (fun _ k => if k = 0 then some (403, str "blocked") else some (200, str "page"))
        (fun _ => some [(str "cf", str "tok")]))
      (str "u") (SessState.mk [] []) true 0).result = some (str "page") ∧
    (fetch (FetchWorld.mk
        (fun _ k => if k = 0 then some (403, str "blocked") else some (200, str "page"))
        (fun _ => some [(str "cf", str "tok")]))
      (str "u") (SessState.mk [] []) true 0).requests = [str "u", str "u"] ∧
    (fetch (FetchWorld.mk
        (fun _ k => if k = 0 then some (403, str "blocked") else some (200, str "page"))
        (fun _ => some [(str "cf", str "tok")]))
      (str "u") (SessState.mk [] []) true 0).solves = [str "u"] :=
  have h :=
    (fetch_403_single_refresh
      (FetchWorld.mk
        (fun _ k => if k = 0 then some (403, str "blocked") else some (200, str "page"))
        (fun _ => some [(str "cf", str "tok")]))
      (str "u") (SessState.mk [] []) 0 (str "blocked") (str "page")
      [(str "cf", str "tok")]).2.2 rfl rfl (by decide) rfl
  ⟨rfl, rfl, h.1, h.2.1, h.2.2.1⟩

theorem scrapeLoop_accept_step {oracle : Int → Option PageOutcome} {stop : Option Int}
    {step : Int} {ctx : TopicContext} {fuel : Nat} {offset : Int} {prev : Option Sig}
    {pg : PageOutcome}
    (hstop : stopExceeded stop offset = false)
    (ho : oracle offset = some pg) (herr : pg.error = none) (hne : pg.posts ≠ [])
    (hprev : prev ≠ some (postSig pg.posts)) (hstep : 0 < step) :
    scrapeLoop oracle stop step ctx (fuel + 1) offset prev =
      ⟨pg.posts.map (fun p => p.with_context offset ctx) ++
         (scrapeLoop oracle stop step ctx fuel (offset + step) (some (postSig pg.posts))).all_posts,
       offset ::
         (scrapeLoop oracle stop step ctx fuel (offset + step) (some (postSig pg.posts))).requested,
       (pg.posts.map (fun p => p.with_context offset ctx)).map ThreadPost.to_record ::
         (scrapeLoop oracle stop step ctx fuel (offset + step) (some (postSig pg.posts))).stored⟩ := by
  rw [scrapeLoop]
  rw [hstop]
  simp only [Bool.false_eq_true, if_false, ho, herr, hne, hprev]
  simp [show ¬step ≤ 0 by omega, hne, hprev]

theorem scrapeLoop_empty_break {oracle : Int → Option PageOutcome} {stop : Option Int}
    {step : Int} {ctx : TopicContext} {fuel : Nat} {offset : Int} {prev : Option Sig}
    (hstop : stopExceeded stop offset = false)
    (ho : oracle offset = some ⟨[], none⟩) :
    scrapeLoop oracle stop step ctx (fuel + 1) offset prev = ⟨[], [offset], []⟩ := by
  rw [scrapeLoop]
  rw [hstop]
  simp [ho]

theorem scrapeLoop_dup_break {oracle : Int → Option PageOutcome} {stop : Option Int}
    {step : Int} {ctx : TopicContext} {fuel : Nat} {offset : Int} {prev : Option Sig}
    {pg : PageOutcome}
    (hstop : stopExceeded stop offset = false)
    (ho : oracle offset = some pg) (herr : pg.error = none) (hne : pg.posts ≠ [])
    (hprev : prev = some (postSig pg.posts)) :
    scrapeLoop oracle stop step ctx (fuel + 1) offset prev = ⟨[], [offset], []⟩ := by
  rw [scrapeLoop]
  rw [hstop]
  simp [ho, herr, hne, hprev]

theorem scrapeLoop_run {oracle : Int → Option PageOutcome} {step : Int} {ctx : TopicContext}
    (hstep : 0 < step) :
    ∀ (M : Nat) (pages : Nat → List ThreadPost) (fuel : Nat) (off : Int) (prev : Option Sig),
    (∀ i, i < M → oracle (off + step * i) = some ⟨pages i, none⟩) →
    (∀ i, i < M → pages i ≠ []) →
    (∀ i, i + 1 < M → postSig (pages (i + 1)) ≠ postSig (pages i)) →
    (0 < M → prev ≠ some (postSig (pages 0))) →
    M ≤ fuel →
    scrapeLoop oracle none step ctx fuel off prev =
      ⟨((List.range M).map
          (fun i => (pages i).map (fun p => p.with_context (off + step * i) ctx))).flatten ++
         (scrapeLoop oracle none step ctx (fuel - M) (off + step * M)
            (if M = 0 then prev else some (postSig (pages (M - 1))))).all_posts,
       (List.range M).map (fun (i : Nat) => off + step * (i : Int)) ++
         (scrapeLoop oracle none step ctx (fuel - M) (off + step * M)
            (if M = 0 then prev else some (postSig (pages (M - 1))))).requested,
       (List.range M).map
          (fun i => ((pages i).map (fun p => p.with_context (off + step * i) ctx)).map
            ThreadPost.to_record) ++
         (scrapeLoop oracle none step ctx (fuel - M) (off + step * M)
            (if M = 0 then prev else some (postSig (pages (M - 1))))).stored⟩ := by
  intro M
  induction M with
  | zero =>
    intro pages fuel off prev _ _ _ _ _
    simp
  | succ M ih =>
    intro pages fuel off prev hpages hne hdist hprev hfuel
    obtain ⟨f, rfl⟩ : ∃ f, fuel = f + 1 := ⟨fuel - 1, by omega⟩
    have h0 : oracle off = some ⟨pages 0, none⟩ := by
      have := hpages 0 (by omega)
      simpa using this
    have hstep1 : scrapeLoop oracle none step ctx (f + 1) off prev =
        ⟨(pages 0).map (fun p => p.with_context off ctx) ++
           (scrapeLoop oracle none step ctx f (off + step) (some (postSig (pages 0)))).all_posts,
         off :: (scrapeLoop oracle none step ctx f (off + step)
            (some (postSig (pages 0)))).requested,
         ((pages 0).map (fun p => p.with_context off ctx)).map ThreadPost.to_record ::
           (scrapeLoop oracle none step ctx f (off + step)
            (some (postSig (pages 0)))).stored⟩ := by
      exact scrapeLoop_accept_step (rfl : stopExceeded (none : Option Int) off = false)
        h0 rfl (hne 0 (by omega)) (hprev (by omega)) hstep
    have hih := ih (fun i => pages (i + 1)) f (off + step) (some (postSig (pages 0)))
      (by
        intro i hi
        have := hpages (i + 1) (by omega)
        have harith : off + step * ((i : Int) + 1) = off + step + step * i := by ring
        rw [← harith]
        simpa using this)
      (fun i hi => hne (i + 1) (by omega))
      (fun i hi => hdist (i + 1) (by omega))
      (by
        intro hM
        have := hdist 0 (by omega)
        simp only [ne_eq, Option.some.injEq]
        intro heq
        exact this heq.symm)
      (by omega)
    rw [hstep1, hih]
    have harithM : off + step + step * (M : Int) = off + step * (((M + 1 : Nat)) : Int) := by
      push_cast
      ring
    have hfsub : f - M = (f + 1) - (M + 1) := by omega
    have hprev' : (if M = 0 then some (postSig (pages 0))
          else some (postSig (pages ((M - 1) + 1)))) =
        (if M + 1 = 0 then prev else some (postSig (pages ((M + 1) - 1)))) := by
      rcases Nat.eq_zero_or_pos M with hM | hM
      · subst hM; simp
      · have hM1 : M - 1 + 1 = M := by omega
        rw [hM1, if_neg (by omega : ¬M = 0), if_neg (by omega : ¬M + 1 = 0),
          Nat.add_sub_cancel]
    have hmapshift : ∀ {α : Type} (h : Nat → Int → α),
        (List.range (M + 1)).map (fun i => h i (off + step * (i : Int))) =
          h 0 off :: (List.range M).map (fun i => h (i + 1) (off + step + step * (i : Int))) := by
      intro α h
      rw [List.range_succ_eq_map]
      simp only [List.map_cons, List.map_map, Nat.cast_zero, mul_zero, add_zero]
      congr 1
      apply List.map_congr_left
      intro i hi
      simp only [Function.comp]
      congr 1
      push_cast
      ring
    rw [hfsub, harithM, hprev']
    simp only [ScrapeOut.mk.injEq]
    refine ⟨?_, ?_, ?_⟩
    · rw [hmapshift (fun i o => (pages i).map (fun p => p.with_context o ctx))]
      rw [List.flatten_cons, List.append_assoc]
    · rw [hmapshift (fun i o => o)]
      rw [List.cons_append]
    · rw [hmapshift
        (fun i o => ((pages i).map (fun p => p.with_context o ctx)).map ThreadPost.to_record)]
      rw [List.cons_append]

/-- C8: when page N (0-indexed) is the first page yielding zero
records — all earlier pages non-empty, error-free and pairwise
consecutive-distinct — the walk requests exactly the offsets of pages
0..N and stops at the empty page: page N+1 is never requested. -/
theorem crawl_stops_on_empty_page (oracle : Int → Option PageOutcome)
    (pages : Nat → List ThreadPost) (N : Nat) (step : Int) (ctx : TopicContext)
    (fuel : Nat) (start : Int)
    (hstep : 0 < step) (hfuel : N + 1 ≤ fuel)
    (hpages : ∀ i, i < N → oracle (max 0 start + step * i) = some ⟨pages i, none⟩)
    (hne : ∀ i, i < N → pages i ≠ [])
    (hdist : ∀ i, i + 1 < N → postSig (pages (i + 1)) ≠ postSig (pages i))
    (hempty : oracle (max 0 start + step * N) = some ⟨[], none⟩) :
    (scrapePrintView oracle none step ctx fuel start).requested =
      (List.range (N + 1)).map (fun (i : Nat) => max 0 start + step * (i : Int)) := by
  unfold scrapePrintView
  rw [scrapeLoop_run hstep N pages fuel (max 0 start) none hpages hne hdist (by simp) (by omega)]
  obtain ⟨f', hf'⟩ : ∃ f', fuel - N = f' + 1 := ⟨fuel - N - 1, by omega⟩
  rw [hf',
    scrapeLoop_empty_break
      (rfl : stopExceeded (none : Option Int) (max 0 start + step * N) = false) hempty]
  dsimp only
  rw [List.range_succ, List.map_append]
  rfl

/-- Witness for C8 with a 2-page sequence (page 0 has a post, page 1 is
empty): exactly offsets 0 and 10 are requested. -/
theorem crawl_stops_on_empty_page_witness :
    witOracleEmpty (max 0 (0 : Int) + 10 * ((1 : Nat) : Int)) = some ⟨[], none⟩ ∧
    (scrapePrintView witOracleEmpty none 10 (TopicContext.mk none none none) 2 0).requested =
      (List.range 2).map (fun (i : Nat) => max 0 (0 : Int) + 10 * (i : Int)) :=
  ⟨by decide,
   crawl_stops_on_empty_page witOracleEmpty (fun _ => [witPost]) 1 10
     (TopicContext.mk none none none) 2 0 (by decide) (by omega)
     (by intro i hi; interval_cases i; decide)
     (by intro i hi; interval_cases i; decide)
     (by intro i hi; omega)
     (by decide)⟩

/-- C3: when the page at crawl index k reproduces the signature (the
ordered (author, timestamp, content) tuple) of the immediately
preceding page, the walk terminates at that page — it requests offsets
0..k and no more — and stores only the batches of pages 0..k-1: the
repeated page's records are never handed to storage. -/
theorem crawl_stops_on_duplicate_page (oracle : Int → Option PageOutcome)
    (pages : Nat → List ThreadPost) (k : Nat) (step : Int) (ctx : TopicContext)
    (fuel : Nat) (start : Int)
    (hstep : 0 < step) (hk : 0 < k) (hfuel : k + 1 ≤ fuel)
    (hpages : ∀ i, i ≤ k → oracle (max 0 start + step * i) = some ⟨pages i, none⟩)
    (hne : ∀ i, i ≤ k → pages i ≠ [])
    (hdist : ∀ i, i + 1 < k → postSig (pages (i + 1)) ≠ postSig (pages i))
    (hdup : postSig (pages k) = postSig (pages (k - 1))) :
    (scrapePrintView oracle none step ctx fuel start).stored =
      (List.range k).map (fun (i : Nat) =>
        ((pages i).map
          (fun p => p.with_context (max 0 start + step * (i : Int)) ctx)).map
          ThreadPost.to_record) ∧
    (scrapePrintView oracle none step ctx fuel start).requested =
      (List.range (k + 1)).map (fun (i : Nat) => max 0 start + step * (i : Int)) := by
  unfold scrapePrintView
  rw [scrapeLoop_run hstep k pages fuel (max 0 start) none
    (fun i hi => hpages i (by omega)) (fun i hi => hne i (by omega)) hdist (by simp) (by omega)]
  obtain ⟨f', hf'⟩ : ∃ f', fuel - k = f' + 1 := ⟨fuel - k - 1, by omega⟩
  rw [hf', if_neg (by omega : ¬k = 0),
    scrapeLoop_dup_break
      (rfl : stopExceeded (none : Option Int) (max 0 start + step * k) = false)
      (hpages k le_rfl) rfl (hne k le_rfl) (congrArg some hdup.symm)]
  dsimp only
  constructor
  · rw [List.append_nil]
  · rw [List.range_succ, List.map_append]
    rfl

/-- Witness for C3: the same single-post page served at offsets 0 and
10 yields exactly one stored batch and requests exactly offsets 0 and
10. -/
theorem crawl_stops_on_duplicate_page_witness :
    postSig [witPost] = postSig [witPost] ∧
    (scrapePrintView witOracleDup none 10 (TopicContext.mk none none none) 2 0).stored =
      (List.range 1).map (fun (i : Nat) =>
        (([witPost]).map
          (fun p => p.with_context (max 0 (0 : Int) + 10 * (i : Int))
            (TopicContext.mk none none none))).map ThreadPost.to_record) ∧
    (scrapePrintView witOracleDup none 10 (TopicContext.mk none none none) 2 0).requested =
      (List.range 2).map (fun (i : Nat) => max 0 (0 : Int) + 10 * (i : Int)) :=
  ⟨rfl,
   crawl_stops_on_duplicate_page witOracleDup (fun _ => [witPost]) 1 10
     (TopicContext.mk none none none) 2 0 (by decide) (by omega) (by omega)
     (by intro i hi; interval_cases i <;> decide)
     (by intro i hi; interval_cases i <;> decide)
     (by intro i hi; omega)
     rfl⟩

theorem pySplit_ne_nil (sep : Char) (l : Str) : pySplit sep l ≠ [] := by
  induction l with
  | nil => simp [pySplit]
  | cons c rest ih =>
    unfold pySplit
    split
    · simp
    · rcases h : pySplit sep rest with _ | ⟨part, parts⟩
      · simp
      · simp

theorem pySplit_no_sep {sep : Char} {l : Str} (h : sep ∉ l) : pySplit sep l = [l] := by
  induction l with
  | nil => rfl
  | cons c rest ih =>
    unfold pySplit
    rw [if_neg (by rintro rfl; exact h (List.mem_cons_self _ _))]
    rw [ih (fun hm => h (List.mem_cons_of_mem _ hm))]

theorem pySplit_cons_ne {sep c : Char} {l : Str} {h t} (hc : c ≠ sep)
    (hl : pySplit sep l = h :: t) : pySplit sep (c :: l) = (c :: h) :: t := by
  unfold pySplit
  rw [if_neg hc, hl]

theorem pySplit_append_sep {sep : Char} {ch l : Str} (h : sep ∉ ch) :
    pySplit sep (ch ++ sep :: l) = ch :: pySplit sep l := by
  induction ch with
  | nil => simp [pySplit]
  | cons c rest ih =>
    have hc : c ≠ sep := by rintro rfl; exact h (List.mem_cons_self _ _)
    have hr := ih (fun hm => h (List.mem_cons_of_mem _ hm))
    rcases hsp : pySplit sep (rest ++ sep :: l) with _ | ⟨hh, tt⟩
    · exact absurd hsp (pySplit_ne_nil _ _)
    · rw [hsp] at hr
      cases hr
      exact pySplit_cons_ne hc hsp

theorem dropWhile_eq_self_of_head {p : Char → Bool} {l : Str}
    (h : ∀ c, l.head? = some c → p c = false) : l.dropWhile p = l := by
  cases l with
  | nil => rfl
  | cons c rest =>
    rw [List.dropWhile_cons, h c rfl]
    simp

theorem pyStrip_eq_self {l : Str}
    (h1 : ∀ c, l.head? = some c → pySpace c = false)
    (h2 : ∀ c, l.getLast? = some c → pySpace c = false) : pyStrip l = l := by
  unfold pyStrip
  rw [dropWhile_eq_self_of_head h1]
  rw [dropWhile_eq_self_of_head (by rw [List.head?_reverse]; exact h2)]
  exact List.reverse_reverse l

theorem pyStrip_cons_space (l : Str) : pyStrip (' ' :: l) = pyStrip l := by
  unfold pyStrip
  rw [List.dropWhile_cons]
  simp [pySpace]

theorem splitFirst_of_append {sep : Char} {k v : Str} (h : sep ∉ k) :
    splitFirst sep (k ++ sep :: v) = (k, some v) := by
  induction k with
  | nil => simp [splitFirst]
  | cons c rest ih =>
    have hc : c ≠ sep := by rintro rfl; exact h (List.mem_cons_self _ _)
    have hr := ih (fun hm => h (List.mem_cons_of_mem _ hm))
    show splitFirst sep (c :: (rest ++ sep :: v)) = (c :: rest, some v)
    unfold splitFirst
    rw [if_neg hc, hr]

theorem pySplit_intercalate (ch : Str) (rest : List Str)
    (h1 : ';' ∉ ch) (hsep : ∀ x ∈ rest, ';' ∉ x) :
    pySplit ';' (List.intercalate (str "; ") (ch :: rest)) =
      ch :: rest.map (fun x => ' ' :: x) := by
  induction rest generalizing ch with
  | nil =>
    have h : List.intercalate (str "; ") [ch] = ch := by simp [List.intercalate]
    rw [h, pySplit_no_sep h1]
    rfl
  | cons y rs ih =>
    have hstep : List.intercalate (str "; ") (ch :: y :: rs) =
        ch ++ ';' :: ' ' :: List.intercalate (str "; ") (y :: rs) := by
      simp [List.intercalate, List.intersperse, str]
    rw [hstep, pySplit_append_sep h1]
    have hih := ih y (hsep y (List.mem_cons_self _ _))
      (fun x hx => hsep x (List.mem_cons_of_mem _ hx))
    rw [pySplit_cons_ne (by decide) hih]
    rfl

theorem entry_pyStrip {k v : Str}
    (hk1 : ∀ c, k.head? = some c → pySpace c = false)
    (hv2 : ∀ c, v.getLast? = some c → pySpace c = false) :
    pyStrip (k ++ '=' :: v) = k ++ '=' :: v := by
  apply pyStrip_eq_self
  · intro c hc
    cases k with
    | nil =>
      simp only [List.nil_append, List.head?_cons, Option.some.injEq] at hc
      subst hc
      decide
    | cons a k' =>
      simp only [List.cons_append, List.head?_cons, Option.some.injEq] at hc
      subst hc
      exact hk1 a rfl
  · intro c hc
    rw [List.getLast?_append_cons] at hc
    cases v with
    | nil =>
      simp only [List.getLast?_singleton, Option.some.injEq] at hc
      subst hc
      decide
    | cons b v' =>
      rw [List.getLast?_cons_cons] at hc
      exact hv2 c hc

/-- Well-formedness of one cookie for the round-trip: its key contains
no "=" and no ";", its value contains no ";", and neither carries
leading or trailing whitespace. -/
def cookieWf (kv : Str × Str) : Prop :=
  '=' ∉ kv.1 ∧ ';' ∉ kv.1 ∧ ';' ∉ kv.2 ∧
  (∀ c, kv.1.head? = some c → pySpace c = false) ∧
  (∀ c, kv.1.getLast? = some c → pySpace c = false) ∧
  (∀ c, kv.2.head? = some c → pySpace c = false) ∧
  (∀ c, kv.2.getLast? = some c → pySpace c = false)

theorem serialize_parse_chunks (jar : Jar) (hw : ∀ kv ∈ jar, cookieWf kv) :
    ((pySplit ';' (serializeCookieJar jar)).map pyStrip).filter (fun x => x ≠ []) =
      jar.map (fun c => c.1 ++ '=' :: c.2) := by
  cases jar with
  | nil => rfl
  | cons c0 rest =>
    have hsemi : ∀ kv ∈ c0 :: rest, ';' ∉ kv.1 ++ '=' :: kv.2 := by
      intro kv hkv hmem
      obtain ⟨h1, h2, h3, _⟩ := hw kv hkv
      rcases List.mem_append.mp hmem with h | h
      · exact h2 h
      · rcases List.mem_cons.mp h with h | h
        · cases h
        · exact h3 h
    have hsplit := pySplit_intercalate (c0.1 ++ '=' :: c0.2)
      (rest.map (fun c => c.1 ++ '=' :: c.2))
      (hsemi c0 (List.mem_cons_self _ _))
      (by
        intro x hx
        rcases List.mem_map.mp hx with ⟨kv, hkv, rfl⟩
        exact hsemi kv (List.mem_cons_of_mem _ hkv))
    have hser : serializeCookieJar (c0 :: rest) =
        List.intercalate (str "; ")
          ((c0.1 ++ '=' :: c0.2) :: rest.map (fun c => c.1 ++ '=' :: c.2)) := by
      unfold serializeCookieJar
      rfl
    have hstrip : ∀ kv ∈ c0 :: rest, pyStrip (kv.1 ++ '=' :: kv.2) = kv.1 ++ '=' :: kv.2 := by
      intro kv hkv
      obtain ⟨h1, h2, h3, h4, h5, h6, h7⟩ := hw kv hkv
      exact entry_pyStrip h4 h7
    rw [hser, hsplit]
    have hmapped : ((c0.1 ++ '=' :: c0.2) ::
          (rest.map (fun c => c.1 ++ '=' :: c.2)).map (fun x => ' ' :: x)).map pyStrip =
        (c0 :: rest).map (fun c => c.1 ++ '=' :: c.2) := by
      simp only [List.map_cons, List.map_map]
      rw [hstrip c0 (List.mem_cons_self _ _)]
      congr 1
      apply List.map_congr_left
      intro kv hkv
      simp only [Function.comp]
      rw [pyStrip_cons_space]
      exact hstrip kv (List.mem_cons_of_mem _ hkv)
    rw [hmapped]
    apply List.filter_eq_self.mpr
    intro x hx
    rcases List.mem_map.mp hx with ⟨kv, hkv, rfl⟩
    simp

theorem parse_fold_entries (entries : Jar) :
    ∀ acc : Jar, (∀ kv ∈ entries, cookieWf kv) →
    (entries.map (fun c => c.1 ++ '=' :: c.2)).foldl
      (fun jar p =>
        match splitFirst '=' p with
        | (_, none) => jar
        | (k, some v) => jarSet jar (pyStrip k) (pyStrip v)) acc =
    entries.foldl (fun j e => jarSet j e.1 e.2) acc := by
  induction entries with
  | nil => intro acc _; rfl
  | cons e es ih =>
    intro acc hw
    obtain ⟨h1, h2, h3, h4, h5, h6, h7⟩ := hw e (List.mem_cons_self _ _)
    simp only [List.map_cons, List.foldl_cons]
    rw [splitFirst_of_append h1]
    have hk : pyStrip e.1 = e.1 := pyStrip_eq_self h4 h5
    have hv : pyStrip e.2 = e.2 := pyStrip_eq_self h6 h7
    dsimp only
    rw [hk, hv]
    exact ih (jarSet acc e.1 e.2) (fun kv hkv => hw kv (List.mem_cons_of_mem _ hkv))

theorem foldl_jarSet_append (entries : Jar) :
    ∀ acc : Jar, (akeys entries).Nodup →
    (∀ k, k ∈ akeys acc → k ∉ akeys entries) →
    entries.foldl (fun j e => jarSet j e.1 e.2) acc = acc ++ entries := by
  induction entries with
  | nil => intro acc _ _; simp
  | cons e es ih =>
    intro acc hnd hdisj
    have hnd2 : (akeys es).Nodup ∧ e.1 ∉ akeys es := by
      unfold akeys at hnd ⊢
      rw [List.map_cons, List.nodup_cons] at hnd
      exact ⟨hnd.2, hnd.1⟩
    simp only [List.foldl_cons]
    have hnotin : ¬ acc.any (fun c => c.1 = e.1) = true := by
      intro hany
      rcases List.any_eq_true.mp hany with ⟨c, hc, hck⟩
      simp only [decide_eq_true_eq] at hck
      have hmem1 : e.1 ∈ akeys acc := by
        rw [← hck]
        exact List.mem_map_of_mem (fun kv => kv.1) hc
      have hmem2 : e.1 ∈ akeys (e :: es) := by simp [akeys]
      exact hdisj e.1 hmem1 hmem2
    have hjs : jarSet acc e.1 e.2 = acc ++ [e] := by
      unfold jarSet
      rw [if_neg hnotin]
    rw [hjs]
    have hdisj' : ∀ k, k ∈ akeys (acc ++ [e]) → k ∉ akeys es := by
      intro k hk hmem
      unfold akeys at hk
      rw [List.map_append] at hk
      rcases List.mem_append.mp hk with hk | hk
      · refine hdisj k hk ?_
        unfold akeys
        rw [List.map_cons]
        exact List.mem_cons_of_mem _ hmem
      · simp only [List.map_cons, List.map_nil, List.mem_singleton] at hk
        subst hk
        exact hnd2.2 hmem
    rw [ih (acc ++ [e]) hnd2.1 hdisj']
    simp

/-- C7 fails on the code as universally stated: a CredentialSet whose
value contains ";" does not survive the round-trip — serializing
("k", "a;b") and parsing the result yields ("k", "a"). -/
theorem cookie_roundtrip_counterexample :
    parseCookieString (serializeCookieJar [(str "k", str "a;b")]) = [(str "k", str "a")] ∧
    parseCookieString (serializeCookieJar [(str "k", str "a;b")]) ≠ [(str "k", str "a;b")] := by
  decide

/-- C7 (amended): for every CredentialSet whose cookie names are unique
and whose names contain no "=" or ";", whose values contain no ";",
and whose names and values carry no leading or trailing whitespace
(all true of real cookies), serializing to the delimited string and
parsing back is the identity — in particular independent of insertion
order, since it holds for every ordering of the jar. -/
theorem cookie_roundtrip (jar : Jar) (hnd : (akeys jar).Nodup)
    (hw : ∀ kv ∈ jar, cookieWf kv) :
    parseCookieString (serializeCookieJar jar) = jar := by
  unfold parseCookieString
  rw [serialize_parse_chunks jar hw]
  rw [parse_fold_entries jar [] hw]
  rw [foldl_jarSet_append jar [] hnd (by intro k hk; simp [akeys] at hk)]
  simp

/-- Witness for C7 (amended) on a two-cookie jar. -/
theorem cookie_roundtrip_witness :
    (akeys [(str "sid", str "abc123"), (str "cf", str "tok45")]).Nodup ∧
    parseCookieString
      (serializeCookieJar [(str "sid", str "abc123"), (str "cf", str "tok45")]) =
      [(str "sid", str "abc123"), (str "cf", str "tok45")] :=
  ⟨by decide,
   cookie_roundtrip [(str "sid", str "abc123"), (str "cf", str "tok45")] (by decide)
     (by
      intro kv hkv
      have hks : ∀ c ∈ kv.1, pySpace c = false := by
        rcases List.mem_cons.mp hkv with rfl | h
        · decide
        · rcases List.mem_cons.mp h with rfl | h
          · decide
          · cases h
      have hvs : ∀ c ∈ kv.2, pySpace c = false := by
        rcases List.mem_cons.mp hkv with rfl | h
        · decide
        · rcases List.mem_cons.mp h with rfl | h
          · decide
          · cases h
      refine ⟨?_, ?_, ?_, ?_, ?_, ?_, ?_⟩
      · rcases List.mem_cons.mp hkv with rfl | h
        · decide
        · rcases List.mem_cons.mp h with rfl | h
          · decide
          · cases h
      · rcases List.mem_cons.mp hkv with rfl | h
        · decide
        · rcases List.mem_cons.mp h with rfl | h
          · decide
          · cases h
      · rcases List.mem_cons.mp hkv with rfl | h
        · decide
        · rcases List.mem_cons.mp h with rfl | h
          · decide
          · cases h
      · intro c hc
        exact hks c (List.mem_of_mem_head? hc)
      · intro c hc
        exact hks c (List.mem_of_mem_getLast? hc)
      · intro c hc
        exact hvs c (List.mem_of_mem_head? hc)
      · intro c hc
        exact hvs c (List.mem_of_mem_getLast? hc))⟩

theorem hexVal_hexUpper {n : Nat} (h : n < 16) : hexVal (hexUpper n) = some n := by
  interval_cases n <;> decide

theorem hexVal_some_lt {c : Char} {a : Nat} (h : hexVal c = some a) : a < 16 := by
  unfold hexVal at h
  split_ifs at h <;> (cases h; omega)

theorem hexUpper_props {n : Nat} (h : n < 16) :
    hexUpper n ≠ '+' ∧ hexUpper n ≠ '%' ∧ hexUpper n ≠ '&' ∧ hexUpper n ≠ '=' ∧
    (hexUpper n).toNat < 256 := by
  interval_cases n <;> decide

theorem unquoteAux_cons_of_ne (c : Char) (l : Str) (h : c ≠ '%') :
    unquoteAux (c :: l) = c :: unquoteAux l := by
  cases l with
  | nil => simp [unquoteAux, h]
  | cons x xs =>
    cases xs with
    | nil => simp [unquoteAux, h]
    | cons y ys => simp [unquoteAux, h]

theorem alwaysSafe_props {c : Char} (h : alwaysSafe c = true) :
    c ≠ '+' ∧ c ≠ '%' ∧ c ≠ ' ' ∧ c ≠ '&' ∧ c ≠ '=' ∧ c ≠ ';' ∧ c ≠ '#' := by
  refine ⟨?_, ?_, ?_, ?_, ?_, ?_, ?_⟩ <;> (rintro rfl; simp [alwaysSafe] at h)

theorem quotePlus_append (a b : Str) : quotePlus (a ++ b) = quotePlus a ++ quotePlus b := by
  induction a with
  | nil => rfl
  | cons c rest ih =>
    rw [List.cons_append]
    show (if alwaysSafe c then [c]
        else if c = ' ' then ['+']
        else ['%', hexUpper (c.toNat / 16), hexUpper (c.toNat % 16)]) ++ quotePlus (rest ++ b) =
      ((if alwaysSafe c then [c]
        else if c = ' ' then ['+']
        else ['%', hexUpper (c.toNat / 16), hexUpper (c.toNat % 16)]) ++ quotePlus rest) ++
        quotePlus b
    rw [ih, List.append_assoc]

/-- Every character emitted by `quote_plus` is a byte and is none of
the query-string delimiters. -/
theorem quotePlus_chars {s : Str} (hs : ∀ c ∈ s, c.toNat < 256) :
    ∀ c ∈ quotePlus s, c.toNat < 256 ∧ c ≠ '&' ∧ c ≠ '=' := by
  induction s with
  | nil => intro c hc; cases hc
  | cons a rest ih =>
    intro c hc
    have ha := hs a (List.mem_cons_self _ _)
    have hrest := ih (fun x hx => hs x (List.mem_cons_of_mem _ hx))
    unfold quotePlus at hc
    rcases List.mem_append.mp hc with hc | hc
    · split_ifs at hc with h1 h2
      · rcases List.mem_singleton.mp hc with rfl
        obtain ⟨_, _, _, h4, h5, _⟩ := alwaysSafe_props h1
        exact ⟨ha, h4, h5⟩
      · rcases List.mem_singleton.mp hc with rfl
        refine ⟨by decide, by decide, by decide⟩
      · rcases List.mem_cons.mp hc with rfl | hc
        · exact ⟨by decide, by decide, by decide⟩
        · rcases List.mem_cons.mp hc with rfl | hc
          · obtain ⟨_, _, h3, h4, h5⟩ := hexUpper_props (by omega : a.toNat / 16 < 16)
            exact ⟨h5, h3, h4⟩
          · rcases List.mem_singleton.mp hc with rfl
            obtain ⟨_, _, h3, h4, h5⟩ := hexUpper_props (by omega : a.toNat % 16 < 16)
            exact ⟨h5, h3, h4⟩
    · exact hrest c hc

/-- Byte-level round trip: `unquote_plus` undoes `quote_plus` on byte
strings. -/
theorem unquotePlus_quotePlus {s : Str} (hs : ∀ c ∈ s, c.toNat < 256) :
    unquotePlus (quotePlus s) = s := by
  induction s with
  | nil => rfl
  | cons c rest ih =>
    have hc := hs c (List.mem_cons_self _ _)
    have ihr := ih (fun x hx => hs x (List.mem_cons_of_mem _ hx))
    unfold unquotePlus at ihr ⊢
    show unquoteAux ((quotePlus (c :: rest)).map fun x => if x = '+' then ' ' else x) = c :: rest
    unfold quotePlus
    rw [List.map_append]
    by_cases h1 : alwaysSafe c = true
    · rw [if_pos h1]
      obtain ⟨hp, hpc, _, _⟩ := alwaysSafe_props h1
      simp only [List.map_cons, List.map_nil, if_neg hp, List.cons_append, List.nil_append]
      rw [unquoteAux_cons_of_ne c _ hpc, ihr]
    · rw [if_neg h1]
      by_cases h2 : c = ' '
      · subst h2
        rw [if_pos rfl]
        have hm : (['+'] : Str).map (fun x => if x = '+' then ' ' else x) = [' '] := by decide
        rw [hm, List.singleton_append]
        rw [unquoteAux_cons_of_ne ' ' _ (by decide), ihr]
      · rw [if_neg h2]
        have hdiv : c.toNat / 16 < 16 := by omega
        have hmod : c.toNat % 16 < 16 := by omega
        obtain ⟨hp1, _, _⟩ := hexUpper_props hdiv
        obtain ⟨hp2, _, _⟩ := hexUpper_props hmod
        simp only [List.map_cons, List.map_nil, List.cons_append, List.nil_append,
          if_neg (by decide : ¬('%' : Char) = '+'), if_neg hp1, if_neg hp2]
        show unquoteAux ('%' :: hexUpper (c.toNat / 16) :: hexUpper (c.toNat % 16) ::
          ((quotePlus rest).map fun x => if x = '+' then ' ' else x)) = c :: rest
        unfold unquoteAux
        rw [if_pos rfl, hexVal_hexUpper hdiv, hexVal_hexUpper hmod]
        dsimp only
        have hn : 16 * (c.toNat / 16) + c.toNat % 16 = c.toNat := by
          omega
        rw [hn, Char.ofNat_toNat, ihr]

theorem pySplit_intercalate_single {sep : Char} :
    ∀ (ch : Str) (rest : List Str), sep ∉ ch → (∀ x ∈ rest, sep ∉ x) →
    pySplit sep (List.intercalate [sep] (ch :: rest)) = ch :: rest := by
  intro ch rest
  induction rest generalizing ch with
  | nil =>
    intro h1 _
    have h : List.intercalate [sep] [ch] = ch := by simp [List.intercalate]
    rw [h, pySplit_no_sep h1]
  | cons y rs ih =>
    intro h1 hsep
    have hstep : List.intercalate [sep] (ch :: y :: rs) =
        ch ++ sep :: List.intercalate [sep] (y :: rs) := by
      simp [List.intercalate, List.intersperse]
    rw [hstep, pySplit_append_sep h1,
      ih y (hsep y (List.mem_cons_self _ _)) (fun x hx => hsep x (List.mem_cons_of_mem _ hx))]

theorem urlencodeSeq_eq_pairs (d : QDict) :
    urlencodeSeq d = List.intercalate ['&']
      (((d.map (fun kv => kv.2.map (fun v => (kv.1, v)))).flatten).map
        (fun kv => quotePlus kv.1 ++ '=' :: quotePlus kv.2)) := by
  unfold urlencodeSeq
  congr 1
  induction d with
  | nil => rfl
  | cons e es ih =>
    simp only [List.map_cons, List.flatten_cons, List.map_append, List.map_map]
    rw [ih]
    rfl

theorem filterMap_chunks (qs : List (Str × Str))
    (hb : ∀ kv ∈ qs, (∀ c ∈ kv.1, c.toNat < 256) ∧ (∀ c ∈ kv.2, c.toNat < 256)) :
    (qs.map (fun kv => quotePlus kv.1 ++ '=' :: quotePlus kv.2)).filterMap
      (fun chunk =>
        if chunk = [] then none
        else
          let nv := splitFirst '=' chunk
          some (unquotePlus nv.1, unquotePlus (nv.2.getD []))) = qs := by
  induction qs with
  | nil => rfl
  | cons kv qs' ih =>
    obtain ⟨hk, hv⟩ := hb kv (List.mem_cons_self _ _)
    have hkeq : '=' ∉ quotePlus kv.1 := by
      intro h
      exact (quotePlus_chars hk _ h).2.2 rfl
    simp only [List.map_cons, List.filterMap_cons]
    rw [if_neg (by simp)]
    simp only [splitFirst_of_append hkeq, Option.getD_some]
    rw [unquotePlus_quotePlus hk, unquotePlus_quotePlus hv]
    rw [ih (fun x hx => hb x (List.mem_cons_of_mem _ hx))]

theorem parseQsl_encode (ps : List (Str × Str))
    (hb : ∀ kv ∈ ps, (∀ c ∈ kv.1, c.toNat < 256) ∧ (∀ c ∈ kv.2, c.toNat < 256)) :
    parseQsl (List.intercalate ['&']
      (ps.map (fun kv => quotePlus kv.1 ++ '=' :: quotePlus kv.2))) = ps := by
  cases ps with
  | nil => rfl
  | cons p rest =>
    have hnoamp : ∀ kv ∈ p :: rest, '&' ∉ quotePlus kv.1 ++ '=' :: quotePlus kv.2 := by
      intro kv hkv hmem
      obtain ⟨hk, hv⟩ := hb kv hkv
      rcases List.mem_append.mp hmem with h | h
      · exact (quotePlus_chars hk _ h).2.1 rfl
      · rcases List.mem_cons.mp h with h | h
        · exact absurd h (by decide)
        · exact (quotePlus_chars hv _ h).2.1 rfl
    unfold parseQsl
    rw [List.map_cons,
      pySplit_intercalate_single _ _ (hnoamp p (List.mem_cons_self _ _))
        (by
          intro x hx
          rcases List.mem_map.mp hx with ⟨kv, hkv, rfl⟩
          exact hnoamp kv (List.mem_cons_of_mem _ hkv))]
    have hfm := filterMap_chunks (p :: rest) hb
    rw [List.map_cons] at hfm
    exact hfm

/-- Keys of a query dict. -/
def qkeys (d : QDict) : List Str := d.map (fun kv => kv.1)

theorem qsInsert_fresh {d : QDict} {k : Str} (v : Str) (h : k ∉ qkeys d) :
    qsInsert d k v = d ++ [(k, [v])] := by
  unfold qsInsert
  rw [if_neg]
  intro hany
  rcases List.any_eq_true.mp hany with ⟨c, hc, hck⟩
  simp only [decide_eq_true_eq] at hck
  exact h (hck ▸ List.mem_map_of_mem (fun kv => kv.1) hc)

theorem qsInsert_last {acc : QDict} {k : Str} (ws : List Str) (v : Str)
    (h : k ∉ qkeys acc) :
    qsInsert (acc ++ [(k, ws)]) k v = acc ++ [(k, ws ++ [v])] := by
  unfold qsInsert
  rw [if_pos]
  · rw [List.map_append]
    congr 1
    · have hpt : ∀ kv ∈ acc, (if kv.1 = k then (k, kv.2 ++ [v]) else kv) = kv := by
        intro kv hkv
        rw [if_neg]
        intro hk
        exact h (hk ▸ List.mem_map_of_mem (fun kv => kv.1) hkv)
      rw [List.map_congr_left hpt]
      simp
    · simp
  · rw [List.any_eq_true]
    exact ⟨(k, ws), List.mem_append_right _ (List.mem_singleton.mpr rfl), by simp⟩

theorem foldl_qsInsert_vals {k : Str} (vs : List Str) :
    ∀ (acc : QDict) (ws : List Str), k ∉ qkeys acc →
    vs.foldl (fun dd v => qsInsert dd k v) (acc ++ [(k, ws)]) = acc ++ [(k, ws ++ vs)] := by
  induction vs with
  | nil => intro acc ws _; simp
  | cons v vs' ih =>
    intro acc ws h
    simp only [List.foldl_cons]
    rw [qsInsert_last ws v h, ih acc (ws ++ [v]) h, List.append_assoc]
    rfl

theorem foldl_qsInsert_flat (d : QDict) :
    ∀ acc : QDict, (qkeys d).Nodup → (∀ kv ∈ d, kv.2 ≠ []) →
    (∀ k, k ∈ qkeys acc → k ∉ qkeys d) →
    ((d.map (fun kv => kv.2.map (fun v => (kv.1, v)))).flatten).foldl
      (fun dd kv => qsInsert dd kv.1 kv.2) acc = acc ++ d := by
  induction d with
  | nil => intro acc _ _ _; simp
  | cons e es ih =>
    intro acc hnd hvne hdisj
    have hnd2 : (qkeys es).Nodup ∧ e.1 ∉ qkeys es := by
      unfold qkeys at hnd ⊢
      rw [List.map_cons, List.nodup_cons] at hnd
      exact ⟨hnd.2, hnd.1⟩
    simp only [List.map_cons, List.flatten_cons, List.foldl_append]
    have hfold1 : (e.2.map (fun v => (e.1, v))).foldl
        (fun dd kv => qsInsert dd kv.1 kv.2) acc = acc ++ [(e.1, e.2)] := by
      rw [List.foldl_map]
      rcases hv : e.2 with _ | ⟨v0, vs⟩
      · exact absurd hv (hvne e (List.mem_cons_self _ _))
      · have hk : e.1 ∉ qkeys acc := fun hmem =>
          hdisj e.1 hmem
            (by
              unfold qkeys
              rw [List.map_cons]
              exact List.mem_cons_self _ _)
        simp only [List.foldl_cons]
        rw [qsInsert_fresh v0 hk]
        have := foldl_qsInsert_vals vs acc [v0] hk
        rw [this]
        rfl
    rw [hfold1]
    have hdisj' : ∀ k, k ∈ qkeys (acc ++ [(e.1, e.2)]) → k ∉ qkeys es := by
      intro k hk hmem
      unfold qkeys at hk
      rw [List.map_append] at hk
      rcases List.mem_append.mp hk with hk | hk
      · refine hdisj k hk ?_
        unfold qkeys
        rw [List.map_cons]
        exact List.mem_cons_of_mem _ hmem
      · simp only [List.map_cons, List.map_nil, List.mem_singleton] at hk
        subst hk
        exact hnd2.2 hmem
    rw [ih (acc ++ [(e.1, e.2)]) hnd2.1 (fun kv hkv => hvne kv (List.mem_cons_of_mem _ hkv))
      hdisj']
    simp

/-- `parse_qs` undoes `urlencode(..., doseq=True)` on a well-formed
dict (unique keys, non-empty value lists, byte-range strings). -/
theorem parseQs_urlencodeSeq (d : QDict)
    (hnd : (qkeys d).Nodup) (hvne : ∀ kv ∈ d, kv.2 ≠ [])
    (hb : ∀ kv ∈ d, (∀ c ∈ kv.1, c.toNat < 256) ∧ (∀ v ∈ kv.2, ∀ c ∈ v, c.toNat < 256)) :
    parseQs (urlencodeSeq d) = d := by
  unfold parseQs
  rw [urlencodeSeq_eq_pairs]
  rw [parseQsl_encode]
  · have := foldl_qsInsert_flat d [] hnd hvne (by intro k hk; cases hk)
    rw [this]
    rfl
  · intro kv hkv
    rcases List.mem_flatten.mp hkv with ⟨l, hl, hkvl⟩
    rcases List.mem_map.mp hl with ⟨e, he, rfl⟩
    rcases List.mem_map.mp hkvl with ⟨v, hv, rfl⟩
    exact ⟨(hb e he).1, (hb e he).2 v hv⟩

theorem toNat_ofNat_byte {n : Nat} (h : n < 256) : (Char.ofNat n).toNat = n := by
  have hv : n.isValidChar := Or.inl (by omega)
  simp [Char.ofNat, hv, Char.toNat, Char.ofNatAux, UInt32.toNat]

theorem unquoteAux_short (c0 : Char) (rest : Str)
    (hshort : ∀ (h1 h2 : Char) (r : Str), rest = h1 :: h2 :: r → False) :
    unquoteAux (c0 :: rest) = (if c0 = '%' then '%' else c0) :: unquoteAux rest := by
  rcases rest with _ | ⟨x, rest'⟩
  · by_cases h : c0 = '%' <;> simp [unquoteAux, h]
  · rcases rest' with _ | ⟨y, r⟩
    · by_cases h : c0 = '%' <;> simp [unquoteAux, h]
    · exact (hshort x y r rfl).elim

/-- Every character `unquote` emits is a character of its input or a
decoded byte. -/
theorem unquoteAux_bytes (l : Str) :
    ∀ c ∈ unquoteAux l, c ∈ l ∨ c.toNat < 256 := by
  induction l using unquoteAux.induct with
  | case1 => intro c hc; cases hc
  | case2 h1 h2 rest a b hb2 hb1 ih =>
    intro c hc
    unfold unquoteAux at hc
    rw [if_pos rfl, hb1, hb2] at hc
    dsimp only at hc
    rcases List.mem_cons.mp hc with rfl | hc
    · right
      have ha := hexVal_some_lt hb1
      have hb := hexVal_some_lt hb2
      rw [toNat_ofNat_byte (by omega)]
      omega
    · rcases ih c hc with h | h
      · exact Or.inl (by simp [h])
      · exact Or.inr h
  | case3 h1 h2 rest hnone ih =>
    intro c hc
    unfold unquoteAux at hc
    rw [if_pos rfl] at hc
    rcases hx1 : hexVal h1 with _ | a <;> rcases hx2 : hexVal h2 with _ | b <;>
      rw [hx1, hx2] at hc <;> dsimp only at hc
    · rcases List.mem_cons.mp hc with rfl | hc
      · exact Or.inl (List.mem_cons_self _ _)
      · rcases ih c hc with h | h
        · exact Or.inl (List.mem_cons_of_mem _ h)
        · exact Or.inr h
    · rcases List.mem_cons.mp hc with rfl | hc
      · exact Or.inl (List.mem_cons_self _ _)
      · rcases ih c hc with h | h
        · exact Or.inl (List.mem_cons_of_mem _ h)
        · exact Or.inr h
    · rcases List.mem_cons.mp hc with rfl | hc
      · exact Or.inl (List.mem_cons_self _ _)
      · rcases ih c hc with h | h
        · exact Or.inl (List.mem_cons_of_mem _ h)
        · exact Or.inr h
    · exact (hnone a b hx1 hx2).elim
  | case4 c0 h1 h2 rest hne ih =>
    intro c hc
    unfold unquoteAux at hc
    rw [if_neg hne] at hc
    rcases List.mem_cons.mp hc with rfl | hc
    · exact Or.inl (List.mem_cons_self _ _)
    · rcases ih c hc with h | h
      · exact Or.inl (List.mem_cons_of_mem _ h)
      · exact Or.inr h
  | case5 rest hshort ih =>
    intro c hc
    rw [unquoteAux_short '%' rest hshort, if_pos rfl] at hc
    rcases List.mem_cons.mp hc with rfl | hc
    · exact Or.inl (List.mem_cons_self _ _)
    · rcases ih c hc with h | h
      · exact Or.inl (List.mem_cons_of_mem _ h)
      · exact Or.inr h
  | case6 c0 rest hshort hne ih =>
    intro c hc
    rw [unquoteAux_short c0 rest hshort, if_neg hne] at hc
    rcases List.mem_cons.mp hc with rfl | hc
    · exact Or.inl (List.mem_cons_self _ _)
    · rcases ih c hc with h | h
      · exact Or.inl (List.mem_cons_of_mem _ h)
      · exact Or.inr h

theorem unquotePlus_bytes {s : Str} (hs : ∀ c ∈ s, c.toNat < 256) :
    ∀ c ∈ unquotePlus s, c.toNat < 256 := by
  intro c hc
  unfold unquotePlus at hc
  rcases unquoteAux_bytes _ c hc with h | h
  · rcases List.mem_map.mp h with ⟨x, hx, hfx⟩
    by_cases hp : x = '+'
    · subst hp
      simp only [if_pos rfl] at hfx
      subst hfx
      decide
    · rw [if_neg hp] at hfx
      subst hfx
      exact hs x hx
  · exact h

theorem pySplit_chars {sep : Char} {l : Str} :
    ∀ part ∈ pySplit sep l, ∀ c ∈ part, c ∈ l := by
  induction l with
  | nil =>
    intro part hp c hc
    simp only [pySplit, List.mem_singleton] at hp
    subst hp
    cases hc
  | cons a rest ih =>
    intro part hp c hc
    unfold pySplit at hp
    split_ifs at hp with ha
    · rcases List.mem_cons.mp hp with rfl | hp
      · cases hc
      · exact List.mem_cons_of_mem _ (ih part hp c hc)
    · rcases hsp : pySplit sep rest with _ | ⟨p0, ps⟩
      · exact absurd hsp (pySplit_ne_nil _ _)
      · rw [hsp] at hp
        rcases List.mem_cons.mp hp with rfl | hp
        · rcases List.mem_cons.mp hc with rfl | hc
          · exact List.mem_cons_self _ _
          · exact List.mem_cons_of_mem _
              (ih p0 (hsp ▸ List.mem_cons_self _ _) c hc)
        · exact List.mem_cons_of_mem _
            (ih part (hsp ▸ List.mem_cons_of_mem _ hp) c hc)

theorem splitFirst_chars {sep : Char} {l : Str} :
    (∀ c ∈ (splitFirst sep l).1, c ∈ l) ∧
    (∀ r, (splitFirst sep l).2 = some r → ∀ c ∈ r, c ∈ l) := by
  induction l with
  | nil => exact ⟨fun c hc => (by cases hc), fun r hr => (by cases hr)⟩
  | cons a rest ih =>
    by_cases ha : a = sep
    · constructor
      · intro c hc
        unfold splitFirst at hc
        rw [if_pos ha] at hc
        cases hc
      · intro r hr c hc
        unfold splitFirst at hr
        rw [if_pos ha] at hr
        cases hr
        exact List.mem_cons_of_mem _ hc
    · constructor
      · intro c hc
        unfold splitFirst at hc
        rw [if_neg ha] at hc
        rcases List.mem_cons.mp hc with rfl | hc
        · exact List.mem_cons_self _ _
        · exact List.mem_cons_of_mem _ (ih.1 c hc)
      · intro r hr c hc
        unfold splitFirst at hr
        rw [if_neg ha] at hr
        exact List.mem_cons_of_mem _ (ih.2 r hr c hc)

theorem parseQsl_bytes {qs : Str} (h : ∀ c ∈ qs, c.toNat < 256) :
    ∀ kv ∈ parseQsl qs, (∀ c ∈ kv.1, c.toNat < 256) ∧ (∀ c ∈ kv.2, c.toNat < 256) := by
  intro kv hkv
  unfold parseQsl at hkv
  rcases List.mem_filterMap.mp hkv with ⟨chunk, hchunk, hsome⟩
  split_ifs at hsome
  have hcb : ∀ c ∈ chunk, c.toNat < 256 := fun c hc =>
    h c (pySplit_chars chunk hchunk c hc)
  simp only [Option.some.injEq] at hsome
  subst hsome
  constructor
  · exact unquotePlus_bytes (fun c hc => hcb c (splitFirst_chars.1 c hc))
  · rcases hs2 : (splitFirst '=' chunk).2 with _ | r
    · intro c hc
      simp only [Option.getD_none] at hc
      simp [unquotePlus, unquoteAux] at hc
    · intro c hc
      simp only [Option.getD_some] at hc
      exact unquotePlus_bytes
        (fun x hx => hcb x (splitFirst_chars.2 r hs2 x hx)) c hc

/-- Dict well-formedness maintained by `parse_qs`: unique keys,
non-empty value lists, byte-range strings. -/
def qWf (d : QDict) : Prop :=
  (qkeys d).Nodup ∧ (∀ kv ∈ d, kv.2 ≠ []) ∧
  (∀ kv ∈ d, (∀ c ∈ kv.1, c.toNat < 256) ∧ (∀ v ∈ kv.2, ∀ c ∈ v, c.toNat < 256))

theorem qkeys_qsInsert (d : QDict) (k : Str) (v : Str) :
    qkeys (qsInsert d k v) =
      if d.any (fun kv => kv.1 = k) then qkeys d else qkeys d ++ [k] := by
  unfold qsInsert qkeys
  split
  · rw [List.map_map]
    apply List.map_congr_left
    intro kv _
    by_cases hk : kv.1 = k <;> simp [hk]
  · simp

theorem qsInsert_wf {d : QDict} {k : Str} {v : Str}
    (hd : qWf d) (hk : ∀ c ∈ k, c.toNat < 256) (hv : ∀ c ∈ v, c.toNat < 256) :
    qWf (qsInsert d k v) := by
  obtain ⟨hnd, hne, hb⟩ := hd
  refine ⟨?_, ?_, ?_⟩
  · rw [qkeys_qsInsert]
    split
    · exact hnd
    · rename_i hany
      rw [List.nodup_append]
      refine ⟨hnd, List.nodup_singleton k, ?_⟩
      intro a ha hb'
      simp only [List.mem_singleton] at hb'
      subst hb'
      rcases List.mem_map.mp ha with ⟨c, hc, hfst⟩
      apply hany
      rw [List.any_eq_true]
      exact ⟨c, hc, by simp [hfst]⟩
  · intro kv hkv
    unfold qsInsert at hkv
    split_ifs at hkv
    · rcases List.mem_map.mp hkv with ⟨kv', hkv', heq⟩
      by_cases hk' : kv'.1 = k
      · rw [if_pos hk'] at heq
        subst heq
        simp
      · rw [if_neg hk'] at heq
        subst heq
        exact hne kv' hkv'
    · rcases List.mem_append.mp hkv with h | h
      · exact hne kv h
      · rcases List.mem_singleton.mp h with rfl
        simp
  · intro kv hkv
    unfold qsInsert at hkv
    split_ifs at hkv
    · rcases List.mem_map.mp hkv with ⟨kv', hkv', heq⟩
      by_cases hk' : kv'.1 = k
      · rw [if_pos hk'] at heq
        subst heq
        refine ⟨hk, ?_⟩
        intro w hw c hc
        rcases List.mem_append.mp hw with h | h
        · exact (hb kv' hkv').2 w h c hc
        · rcases List.mem_singleton.mp h with rfl
          exact hv c hc
      · rw [if_neg hk'] at heq
        subst heq
        exact hb kv' hkv'
    · rcases List.mem_append.mp hkv with h | h
      · exact hb kv h
      · rcases List.mem_singleton.mp h with rfl
        refine ⟨hk, ?_⟩
        intro w hw c hc
        rcases List.mem_singleton.mp hw with rfl
        exact hv c hc

theorem parseQs_wf {qs : Str} (h : ∀ c ∈ qs, c.toNat < 256) : qWf (parseQs qs) := by
  unfold parseQs
  have hpairs := parseQsl_bytes h
  generalize hps : parseQsl qs = ps at hpairs
  have : ∀ (ps' : List (Str × Str)) (acc : QDict),
      (∀ kv ∈ ps', (∀ c ∈ kv.1, c.toNat < 256) ∧ (∀ c ∈ kv.2, c.toNat < 256)) →
      qWf acc → qWf (ps'.foldl (fun d kv => qsInsert d kv.1 kv.2) acc) := by
    intro ps'
    induction ps' with
    | nil => intro acc _ hacc; exact hacc
    | cons p rest ih =>
      intro acc hb hacc
      simp only [List.foldl_cons]
      exact ih _ (fun kv hkv => hb kv (List.mem_cons_of_mem _ hkv))
        (qsInsert_wf hacc (hb p (List.mem_cons_self _ _)).1 (hb p (List.mem_cons_self _ _)).2)
  exact this ps [] hpairs ⟨List.nodup_nil, fun kv h => (by cases h), fun kv h => (by cases h)⟩

theorem qkeys_dictSet (d : QDict) (k : Str) (v : List Str) :
    qkeys (dictSet d k v) =
      if d.any (fun kv => kv.1 = k) then qkeys d else qkeys d ++ [k] := by
  unfold dictSet qkeys
  split
  · rw [List.map_map]
    apply List.map_congr_left
    intro kv _
    by_cases hk : kv.1 = k <;> simp [hk]
  · simp

theorem dictSet_wf {d : QDict} {k : Str} {v : List Str}
    (hd : qWf d) (hk : ∀ c ∈ k, c.toNat < 256) (hvne : v ≠ [])
    (hv : ∀ w ∈ v, ∀ c ∈ w, c.toNat < 256) : qWf (dictSet d k v) := by
  obtain ⟨hnd, hne, hb⟩ := hd
  refine ⟨?_, ?_, ?_⟩
  · rw [qkeys_dictSet]
    split
    · exact hnd
    · rename_i hany
      rw [List.nodup_append]
      refine ⟨hnd, List.nodup_singleton k, ?_⟩
      intro a ha hb'
      simp only [List.mem_singleton] at hb'
      subst hb'
      rcases List.mem_map.mp ha with ⟨c, hc, hfst⟩
      apply hany
      rw [List.any_eq_true]
      exact ⟨c, hc, by simp [hfst]⟩
  · intro kv hkv
    unfold dictSet at hkv
    split_ifs at hkv
    · rcases List.mem_map.mp hkv with ⟨kv', hkv', heq⟩
      by_cases hk' : kv'.1 = k
      · rw [if_pos hk'] at heq
        subst heq
        exact hvne
      · rw [if_neg hk'] at heq
        subst heq
        exact hne kv' hkv'
    · rcases List.mem_append.mp hkv with h | h
      · exact hne kv h
      · rcases List.mem_singleton.mp h with rfl
        exact hvne
  · intro kv hkv
    unfold dictSet at hkv
    split_ifs at hkv
    · rcases List.mem_map.mp hkv with ⟨kv', hkv', heq⟩
      by_cases hk' : kv'.1 = k
      · rw [if_pos hk'] at heq
        subst heq
        exact ⟨hk, hv⟩
      · rw [if_neg hk'] at heq
        subst heq
        exact hb kv' hkv'
    · rcases List.mem_append.mp hkv with h | h
      · exact hb kv h
      · rcases List.mem_singleton.mp h with rfl
        exact ⟨hk, hv⟩

theorem dictPop_wf {d : QDict} {k : Str} (hd : qWf d) : qWf (dictPop d k) := by
  obtain ⟨hnd, hne, hb⟩ := hd
  refine ⟨?_, ?_, ?_⟩
  · unfold dictPop qkeys
    exact List.Nodup.sublist (List.Sublist.map (fun kv => kv.1) (List.filter_sublist d)) hnd
  · intro kv hkv
    exact hne kv (List.mem_of_mem_filter hkv)
  · intro kv hkv
    exact hb kv (List.mem_of_mem_filter hkv)

theorem dictSet_entries {d : QDict} {k : Str} {v : List Str} :
    ∀ kv ∈ dictSet d k v, kv.1 = k → kv = (k, v) := by
  intro kv hkv hk
  unfold dictSet at hkv
  split_ifs at hkv with hany
  · rcases List.mem_map.mp hkv with ⟨kv', hkv', heq⟩
    by_cases hk' : kv'.1 = k
    · rw [if_pos hk'] at heq
      exact heq.symm
    · rw [if_neg hk'] at heq
      subst heq
      exact absurd hk hk'
  · rcases List.mem_append.mp hkv with h | h
    · exfalso
      apply hany
      rw [List.any_eq_true]
      exact ⟨kv, h, by simp [hk]⟩
    · exact List.mem_singleton.mp h

theorem dictSet_mem_key (d : QDict) (k : Str) (v : List Str) :
    k ∈ qkeys (dictSet d k v) := by
  rw [qkeys_dictSet]
  split
  · rename_i hany
    rcases List.any_eq_true.mp hany with ⟨c, hc, hck⟩
    simp only [decide_eq_true_eq] at hck
    exact hck ▸ List.mem_map_of_mem (fun kv => kv.1) hc
  · simp

theorem dictPop_entries {d : QDict} {k : Str} :
    ∀ kv ∈ dictPop d k, kv.1 ≠ k ∧ kv ∈ d := by
  intro kv hkv
  unfold dictPop at hkv
  have h1 := List.of_mem_filter hkv
  simp only [decide_eq_true_eq] at h1
  exact ⟨h1, List.mem_of_mem_filter hkv⟩

theorem dictPop_mem_key {d : QDict} {k s : Str} (hk : k ∈ qkeys d) (hne : k ≠ s) :
    k ∈ qkeys (dictPop d s) := by
  rcases List.mem_map.mp hk with ⟨kv, hkv, hfst⟩
  have hmemf : kv ∈ dictPop d s := by
    unfold dictPop
    apply List.mem_filter.mpr
    refine ⟨hkv, ?_⟩
    simp only [decide_eq_true_eq, ne_eq, hfst]
    simpa using hne
  have hmm := List.mem_map_of_mem (fun kv => kv.1) hmemf
  exact hfst ▸ hmm

theorem dictGet_eq_some {d : QDict} {k : Str} {v : List Str}
    (hmem : k ∈ qkeys d) (hall : ∀ kv ∈ d, kv.1 = k → kv = (k, v)) :
    dictGet d k = some v := by
  induction d with
  | nil => cases hmem
  | cons c rest ih =>
    by_cases hc : c.1 = k
    · have hck := hall c (List.mem_cons_self _ _) hc
      unfold dictGet
      rw [List.find?_cons_of_pos _ (by simp [hc])]
      rw [hck]
      rfl
    · unfold dictGet
      rw [List.find?_cons_of_neg _ (by simp [hc])]
      have hmem' : k ∈ qkeys rest := by
        unfold qkeys at hmem
        rw [List.map_cons] at hmem
        rcases List.mem_cons.mp hmem with h | h
        · exact absurd h.symm hc
        · exact h
      exact ih hmem' (fun kv hkv => hall kv (List.mem_cons_of_mem _ hkv))

theorem dictGet_eq_none {d : QDict} {k : Str} (h : ∀ kv ∈ d, kv.1 ≠ k) :
    dictGet d k = none := by
  unfold dictGet
  rw [List.find?_eq_none.mpr]
  · rfl
  · intro kv hkv
    simp only [decide_eq_true_eq]
    exact h kv hkv

theorem dictSet_id {d : QDict} {k : Str} {v : List Str}
    (hmem : k ∈ qkeys d) (hall : ∀ kv ∈ d, kv.1 = k → kv = (k, v)) :
    dictSet d k v = d := by
  unfold dictSet
  rw [if_pos]
  · have hpt : ∀ kv ∈ d, (if kv.1 = k then (k, v) else kv) = kv := by
      intro kv hkv
      by_cases hk : kv.1 = k
      · rw [if_pos hk, hall kv hkv hk]
      · rw [if_neg hk]
    rw [List.map_congr_left hpt]
    simp
  · rw [List.any_eq_true]
    rcases List.mem_map.mp hmem with ⟨kv, hkv, hfst⟩
    exact ⟨kv, hkv, by simp [hfst]⟩

theorem dictPop_id {d : QDict} {k : Str} (h : ∀ kv ∈ d, kv.1 ≠ k) :
    dictPop d k = d := by
  unfold dictPop
  apply List.filter_eq_self.mpr
  intro kv hkv
  simp only [decide_eq_true_eq, ne_eq]
  simpa using h kv hkv

theorem base_ne_empty {base : Url} (hbn : base.netloc ≠ []) : base ≠ emptyUrl := by
  intro h
  rw [h] at hbn
  exact hbn rfl

theorem urljoin_query (base u : Url) :
    (urljoin base u).query = u.query ∨ (urljoin base u).query = base.query := by
  unfold urljoin
  split_ifs <;> first
    | exact Or.inl rfl
    | exact Or.inr rfl
    | (dsimp only
       split_ifs <;> first | exact Or.inl rfl | exact Or.inr rfl)

theorem urljoin_keep {base u' : Url} (hbs : base.scheme = str "https")
    (hbn : base.netloc ≠ []) (h1 : u'.scheme ≠ []) (h2 : u'.scheme ≠ str "https") :
    urljoin base u' = u' := by
  unfold urljoin
  rw [if_neg (base_ne_empty hbn)]
  rw [if_neg (show u' ≠ emptyUrl from fun h => h1 (by rw [h]; rfl))]
  dsimp only
  rw [if_neg h1]
  rw [if_pos (Or.inl (fun hh => h2 (hh.trans hbs)))]

theorem urljoin_https {base u' : Url} (hbs : base.scheme = str "https")
    (hbn : base.netloc ≠ []) (h1 : u'.scheme = str "https") (h2 : u'.netloc ≠ []) :
    urljoin base u' = u' := by
  unfold urljoin
  rw [if_neg (base_ne_empty hbn)]
  rw [if_neg (show u' ≠ emptyUrl from fun h => h2 (by rw [h]; rfl))]
  dsimp only
  rw [if_neg (show u'.scheme ≠ [] from by rw [h1]; decide)]
  rw [if_neg (show ¬(u'.scheme ≠ base.scheme ∨ u'.scheme ∉ usesRelative) from by
    rw [h1, hbs]; decide)]
  rw [if_pos (⟨by rw [h1]; decide, h2⟩ : u'.scheme ∈ usesNetloc ∧ u'.netloc ≠ [])]

theorem urljoin_branch (base u : Url) (hbs : base.scheme = str "https")
    (hbn : base.netloc ≠ []) :
    (urljoin base u = u ∧ u.scheme ≠ [] ∧ u.scheme ≠ str "https") ∨
    ((urljoin base u).scheme = str "https" ∧ (urljoin base u).netloc ≠ []) := by
  by_cases hus : u.scheme ≠ [] ∧ u.scheme ≠ str "https"
  · exact Or.inl ⟨urljoin_keep hbs hbn hus.1 hus.2, hus⟩
  · right
    unfold urljoin
    rw [if_neg (base_ne_empty hbn)]
    by_cases hue : u = emptyUrl
    · rw [if_pos hue]
      exact ⟨hbs, hbn⟩
    rw [if_neg hue]
    dsimp only
    push_neg at hus
    by_cases h0 : u.scheme = []
    · rw [if_pos h0]
      rw [if_neg (show ¬(base.scheme ≠ base.scheme ∨ base.scheme ∉ usesRelative) from by
        rw [hbs]; decide)]
      by_cases hn : u.netloc = []
      · rw [if_neg (show ¬(base.scheme ∈ usesNetloc ∧ u.netloc ≠ []) from
          fun hand => hand.2 hn)]
        rw [if_pos (show base.scheme ∈ usesNetloc from by rw [hbs]; decide)]
        split_ifs <;> exact ⟨hbs, hbn⟩
      · rw [if_pos (⟨by rw [hbs]; decide, hn⟩ : base.scheme ∈ usesNetloc ∧ u.netloc ≠ [])]
        exact ⟨hbs, hn⟩
    · have hhttps : u.scheme = str "https" := hus h0
      rw [if_neg h0]
      rw [if_neg (show ¬(u.scheme ≠ base.scheme ∨ u.scheme ∉ usesRelative) from by
        rw [hhttps, hbs]; decide)]
      by_cases hn : u.netloc = []
      · rw [if_neg (show ¬(u.scheme ∈ usesNetloc ∧ u.netloc ≠ []) from
          fun hand => hand.2 hn)]
        rw [if_pos (show u.scheme ∈ usesNetloc from by rw [hhttps]; decide)]
        split_ifs <;> exact ⟨hhttps, hbn⟩
      · rw [if_pos (⟨by rw [hhttps]; decide, hn⟩ : u.scheme ∈ usesNetloc ∧ u.netloc ≠ [])]
        exact ⟨hhttps, hn⟩

theorem transform_props {q : Str} (hb : ∀ c ∈ q, c.toNat < 256) :
    qWf (dictPop (dictSet (parseQs q) (str "view") [str "print"]) (str "start")) ∧
    (∀ kv ∈ dictPop (dictSet (parseQs q) (str "view") [str "print"]) (str "start"),
      kv.1 = str "view" → kv = (str "view", [str "print"])) ∧
    str "view" ∈ qkeys (dictPop (dictSet (parseQs q) (str "view") [str "print"]) (str "start")) ∧
    (∀ kv ∈ dictPop (dictSet (parseQs q) (str "view") [str "print"]) (str "start"),
      kv.1 ≠ str "start") := by
  have h0 := parseQs_wf hb
  have h1 : qWf (dictSet (parseQs q) (str "view") [str "print"]) :=
    dictSet_wf h0 (by decide) (by decide) (by decide)
  refine ⟨dictPop_wf h1, ?_, ?_, ?_⟩
  · intro kv hkv hk
    exact dictSet_entries kv (dictPop_entries kv hkv).2 hk
  · exact dictPop_mem_key (dictSet_mem_key _ _ _) (by decide)
  · intro kv hkv
    exact (dictPop_entries kv hkv).1

/-- C9: ensure_print_view is idempotent, and its result's query string
always parses with the parameter view=print and never with a start
parameter. Stated for a configured base with scheme "https" and a
non-empty host, over byte-range query strings (URLs are byte
strings). -/
theorem ensure_print_view_idempotent (base u : Url)
    (hbs : base.scheme = str "https") (hbn : base.netloc ≠ [])
    (hub : ∀ c ∈ u.query, c.toNat < 256) (hbb : ∀ c ∈ base.query, c.toNat < 256) :
    ensurePrintView base (ensurePrintView base u) = ensurePrintView base u ∧
    dictGet (parseQs (ensurePrintView base u).query) (str "view") = some [str "print"] ∧
    dictGet (parseQs (ensurePrintView base u).query) (str "start") = none := by
  have hpq : ∀ c ∈ (urljoin base u).query, c.toNat < 256 := by
    rcases urljoin_query base u with h | h <;> rw [h]
    · exact hub
    · exact hbb
  obtain ⟨hwf1, hview, hmemv, hnostart⟩ := transform_props hpq
  have hEq : (ensurePrintView base u).query =
      urlencodeSeq (dictPop (dictSet (parseQs (urljoin base u).query)
        (str "view") [str "print"]) (str "start")) := rfl
  have hparse : parseQs (ensurePrintView base u).query =
      dictPop (dictSet (parseQs (urljoin base u).query)
        (str "view") [str "print"]) (str "start") := by
    rw [hEq]
    exact parseQs_urlencodeSeq _ hwf1.1 hwf1.2.1 hwf1.2.2
  refine ⟨?_, ?_, ?_⟩
  · have hjoin2 : urljoin base (ensurePrintView base u) = ensurePrintView base u := by
      rcases urljoin_branch base u hbs hbn with ⟨hkeep, h1, h2⟩ | ⟨hsch, hnet⟩
      · refine urljoin_keep hbs hbn ?_ ?_
        · show (urljoin base u).scheme ≠ []
          rw [hkeep]
          exact h1
        · show (urljoin base u).scheme ≠ str "https"
          rw [hkeep]
          exact h2
      · exact urljoin_https hbs hbn hsch hnet
    have hstep : ensurePrintView base (ensurePrintView base u) =
        { urljoin base (ensurePrintView base u) with
          query := urlencodeSeq (dictPop (dictSet
            (parseQs (urljoin base (ensurePrintView base u)).query)
            (str "view") [str "print"]) (str "start")) } := rfl
    rw [hstep, hjoin2, hparse, dictSet_id hmemv hview, dictPop_id hnostart, ← hEq]
  · rw [hparse]
    exact dictGet_eq_some hmemv hview
  · rw [hparse]
    exact dictGet_eq_none hnostart

/-- Witness for C9 at the forum base URL and a topic URL carrying
f, t and start parameters. -/
theorem ensure_print_view_idempotent_witness :
    (Url.mk (str "https") (str "www.darkforum.com") (str "/") [] [] []).netloc ≠ [] ∧
    (ensurePrintView (Url.mk (str "https") (str "www.darkforum.com") (str "/") [] [] [])
        (ensurePrintView (Url.mk (str "https") (str "www.darkforum.com") (str "/") [] [] [])
          (Url.mk [] [] (str "viewtopic.php") [] (str "f=3&t=7&start=20") [])) =
      ensurePrintView (Url.mk (str "https") (str "www.darkforum.com") (str "/") [] [] [])
        (Url.mk [] [] (str "viewtopic.php") [] (str "f=3&t=7&start=20") []) ∧
     dictGet (parseQs (ensurePrintView
        (Url.mk (str "https") (str "www.darkforum.com") (str "/") [] [] [])
        (Url.mk [] [] (str "viewtopic.php") [] (str "f=3&t=7&start=20") [])).query)
        (str "view") = some [str "print"] ∧
     dictGet (parseQs (ensurePrintView
        (Url.mk (str "https") (str "www.darkforum.com") (str "/") [] [] [])
        (Url.mk [] [] (str "viewtopic.php") [] (str "f=3&t=7&start=20") [])).query)
        (str "start") = none) :=
  ⟨by decide,
   ensure_print_view_idempotent
     (Url.mk (str "https") (str "www.darkforum.com") (str "/") [] [] [])
     (Url.mk [] [] (str "viewtopic.php") [] (str "f=3&t=7&start=20") [])
     rfl (by decide) (by decide) (by decide)⟩

end Scraper
